import Mathlib

set_option maxHeartbeats 1000000

/-!
# Verification of the nuts Acorn XML mapping engine

Shallow embedding of the declarative object/XML mapping engine defined in
`acorn.py` and `acorn_base.py`.  Python objects, XML elements, per-attribute
metadata dictionaries and the source-strategy registry are embedded as
inductive types; the load (`fromxml`), save (`toxml`), construction
(`__init__`) and schema-compilation (`parse_content`) algorithms are
translated function by function.  Python exceptions are modelled by an
explicit error type threaded through `Except`.
-/

/--
Exceptions that the embedded code can raise.  `AcornException` instances are
modelled by the `acorn*` constructors, carrying the data that the source
interpolates into its message strings:

* `acornNoValue ty name` — raised by the scalar source when neither a raw
  value nor a default is available; `ty` is the source's `type` string
  (`text` / `attrib` / `child`), `name` the attribute name.
* `acornInvalidOption v` — raised when a converted value (rendered as the
  string `v`) is not among the permissible options.
* `acornNoSource n` — raised by `parse_content` for an unregistered source
  name `n`.
* `acornNoAttr name` — raised by the single-child `toxml` when the object
  lacks the required attribute.

`keyError`, `attributeError` and `typeError` model the corresponding Python
builtin exceptions; `raised tag` models an arbitrary exception thrown by a
user-supplied type converter.
-/
inductive Err : Type where
  | keyError : Err
  | attributeError : Err
  | typeError : Err
  | acornNoValue : String → String → Err
  | acornInvalidOption : String → Err
  | acornNoSource : String → Err
  | acornNoAttr : String → Err
  | raised : String → Err
deriving DecidableEq

/-- Whether an error belongs to the `AcornException` family. -/
def Err.isAcorn : Err → Bool
  | .acornNoValue _ _ => true
  | .acornInvalidOption _ => true
  | .acornNoSource _ => true
  | .acornNoAttr _ => true
  | _ => false

/-- Lookup in an insertion-ordered association list, the read operation of a
Python `dict` (`d[k]` / `d.get(k)`). -/
def dictGet {α : Type} : List (String × α) → String → Option α
  | [], _ => none
  | (k, v) :: rest, key => if k = key then some v else dictGet rest key

/-- Update of an insertion-ordered association list, the write operation of a
Python `dict` (`d[k] = v`): replaces the value in place when the key is
present, appends otherwise. -/
def dictSet {α : Type} : List (String × α) → String → α → List (String × α)
  | [], key, v => [(key, v)]
  | (k, w) :: rest, key, v =>
      if k = key then (key, v) :: rest else (k, w) :: dictSet rest key v

/-- Deletion from an association list, the Python `del d[k]`. -/
def dictDel {α : Type} : List (String × α) → String → List (String × α)
  | [], _ => []
  | (k, w) :: rest, key => if k = key then rest else (k, w) :: dictDel rest key

theorem dictGet_dictSet_self {α : Type} (d : List (String × α)) (k : String) (v : α) :
    dictGet (dictSet d k v) k = some v := by
  induction d with
  | nil => simp [dictGet, dictSet]
  | cons hd rest ih =>
      obtain ⟨k0, w0⟩ := hd
      by_cases h : k0 = k
      · simp [dictGet, dictSet, h]
      · simp [dictGet, dictSet, h, ih]

theorem dictGet_dictSet_ne {α : Type} (d : List (String × α)) (k k0 : String) (v : α)
    (h : k0 ≠ k) : dictGet (dictSet d k v) k0 = dictGet d k0 := by
  induction d with
  | nil =>
      have hk : k ≠ k0 := fun hh => h hh.symm
      simp [dictGet, dictSet, hk]
  | cons hd rest ih =>
      obtain ⟨k1, w1⟩ := hd
      by_cases h1 : k1 = k
      · subst h1
        have hk : k1 ≠ k0 := fun hh => h hh.symm
        simp [dictGet, dictSet, hk]
      · simp only [dictSet, if_neg h1, dictGet]
        by_cases h2 : k1 = k0
        · simp [h2]
        · simp [h2, ih]

theorem sizeOf_dictGet {α : Type} [SizeOf α] (d : List (String × α)) (k : String) (v : α)
    (h : dictGet d k = some v) : sizeOf v < sizeOf d := by
  induction d with
  | nil => simp [dictGet] at h
  | cons hd rest ih =>
      obtain ⟨k0, w0⟩ := hd
      by_cases hk : k0 = k
      · simp [dictGet, hk] at h
        subst h
        simp
        omega
      · simp [dictGet, hk] at h
        have := ih h
        simp
        omega

/--
An XML element as produced by the ElementTree-style collaborators the engine
relies on: a tag, an attribute dictionary, an optional text (Python `None`
when absent) and the ordered list of direct children.
-/
inductive XmlElem : Type where
  | mk : String → List (String × String) → Option String → List XmlElem → XmlElem

/-- The element's tag. -/
def XmlElem.tagF : XmlElem → String
  | .mk t _ _ _ => t

/-- The element's attribute dictionary (`el.attrib`). -/
def XmlElem.attribF : XmlElem → List (String × String)
  | .mk _ a _ _ => a

/-- The element's own text (`el.text`, `none` for Python `None`). -/
def XmlElem.textF : XmlElem → Option String
  | .mk _ _ x _ => x

/-- The element's direct children, in document order. -/
def XmlElem.childrenL : XmlElem → List XmlElem
  | .mk _ _ _ c => c

/-- `el.text = s` -/
def XmlElem.setText : XmlElem → Option String → XmlElem
  | .mk t a _ c, x => .mk t a x c

/-- `el.attrib[name] = s` -/
def XmlElem.setAttr : XmlElem → String → String → XmlElem
  | .mk t a x c, n, s => .mk t (dictSet a n s) x c

/-- `el.append(child)` (ElementTree appends at the end). -/
def XmlElem.appendChild : XmlElem → XmlElem → XmlElem
  | .mk t a x c, child => .mk t a x (c ++ [child])

/-- `el.find(tag)`: first direct child with the given tag, if any. -/
def XmlElem.findTag (el : XmlElem) (tag : String) : Option XmlElem :=
  el.childrenL.find? (fun c => decide (c.tagF = tag))

/-- `el.iterfind(tag)`: all direct children with the given tag, in order. -/
def XmlElem.iterfindTag (el : XmlElem) (tag : String) : List XmlElem :=
  el.childrenL.filter (fun c => decide (c.tagF = tag))

/--
A type converter that can occupy the `type` slot of a metadata dictionary
for a scalar source.  `pyStr` is Python's `str` builtin: on a raw string it
is the identity, on Python `None` it yields the string `None`, and called
with no arguments it yields the empty string.  `raises e` models an
arbitrary user-supplied converter that throws `e` whenever called.
-/
inductive Conv : Type where
  | pyStr : Conv
  | raises : Err → Conv
deriving DecidableEq

/-- A serializer occupying the `str` slot of a metadata dictionary.  The code
defaults it to Python's `str` builtin, the only serializer exercised here. -/
inductive Ser : Type where
  | pyStr : Ser
deriving DecidableEq

/-- The three scalar source strategies, i.e. the `AcornTextSource` class and
its two subclasses, which differ only in `_get_text`/`toxml`. -/
inductive SKind : Type where
  | text : SKind
  | attr : SKind
  | subtext : SKind
deriving DecidableEq

/-- The `type` class attribute of the scalar sources, used in the
missing-value error message. -/
def SKind.typeName : SKind → String
  | .text => "text"
  | .attr => "attrib"
  | .subtext => "child"

/-- The compiled strategy kind of a schema entry: one of the three scalar
sources, the single-child source, or the multi-child source. -/
inductive SrcKind : Type where
  | scalar : SKind → SrcKind
  | child : SrcKind
  | children : SrcKind
deriving DecidableEq

mutual
/-- A runtime Python value relevant to the engine: a string scalar, a nested
Acorn instance, or a list of Acorn instances. -/
inductive Value : Type where
  | str : String → Value
  | obj : Obj → Value
  | list : List Obj → Value

/-- An Acorn instance: its attribute dictionary (`__dict__`), in insertion
order. -/
inductive Obj : Type where
  | mk : List (String × Value) → Obj

/-- The occupant of the `type` slot of a metadata dictionary: either a
scalar converter or an Acorn subclass. -/
inductive TypeV : Type where
  | conv : Conv → TypeV
  | cls : AcornClass → TypeV

/-- A per-attribute metadata dictionary, with one slot per key the code
reads: `src`, `type`, `default`, `options`, `tag`, `str`, `optional`.
`none` means the key is absent from the dict; `optional` holds the
truthiness of `meta.get('optional')`. -/
inductive RawMeta : Type where
  | mk : Option String → Option TypeV → Option Value → Option (List String) →
         Option String → Option Ser → Bool → RawMeta

/-- An Acorn subclass: its `xml_tag` and its compiled `acorn_content`, a
mapping from attribute name to the compiled source (strategy kind plus the
metadata dictionary the source object retains). -/
inductive AcornClass : Type where
  | mk : String → List (String × SrcKind × RawMeta) → AcornClass
end

/-- The `src` key of a metadata dictionary. -/
def RawMeta.srcKey : RawMeta → Option String
  | .mk s _ _ _ _ _ _ => s

/-- The `type` key of a metadata dictionary. -/
def RawMeta.typeF : RawMeta → Option TypeV
  | .mk _ t _ _ _ _ _ => t

/-- The `default` key of a metadata dictionary. -/
def RawMeta.defaultF : RawMeta → Option Value
  | .mk _ _ d _ _ _ _ => d

/-- The `options` key of a metadata dictionary. -/
def RawMeta.optionsF : RawMeta → Option (List String)
  | .mk _ _ _ o _ _ _ => o

/-- The `tag` key of a metadata dictionary. -/
def RawMeta.tagF : RawMeta → Option String
  | .mk _ _ _ _ tg _ _ => tg

/-- The `str` (serializer) key of a metadata dictionary. -/
def RawMeta.serF : RawMeta → Option Ser
  | .mk _ _ _ _ _ s _ => s

/-- The truthiness of `meta.get('optional')`. -/
def RawMeta.optionalK : RawMeta → Bool
  | .mk _ _ _ _ _ _ b => b

/-- The instance's attribute dictionary. -/
def Obj.attrs : Obj → List (String × Value)
  | .mk l => l

/-- `getattr(obj, name)`, `none` signalling `AttributeError`. -/
def Obj.getattr (o : Obj) (n : String) : Option Value :=
  dictGet o.attrs n

/-- `setattr(obj, name, v)`. -/
def Obj.setattr (o : Obj) (n : String) (v : Value) : Obj :=
  .mk (dictSet o.attrs n v)

/-- The class's `xml_tag`. -/
def AcornClass.xml_tag : AcornClass → String
  | .mk t _ => t

/-- The class's compiled `acorn_content`. -/
def AcornClass.content : AcornClass → List (String × SrcKind × RawMeta)
  | .mk _ c => c

/-- Python's `str` applied to a runtime value.  On the string scalars the
engine serializes it is the identity; on the other values it stands for the
default object rendering, which the embedded code never parses back. -/
def pyStrValue : Value → String
  | .str s => s
  | .obj _ => "<Acorn object>"
  | .list _ => "<list>"

/-- Run a serializer (`_process_val_txml`'s `conv`). -/
def Ser.run : Ser → Value → String
  | .pyStr, v => pyStrValue v

/-- Apply a converter to a raw value (`meta['type'](raw_val)`); the raw value
is `none` when the XML yielded Python `None`. -/
def Conv.run : Conv → Option String → Except Err Value
  | .pyStr, some s => .ok (.str s)
  | .pyStr, none => .ok (.str "None")
  | .raises e, _ => .error e

/-- Call a converter with no arguments (`meta['type']()`), as the
single-child `create_default` does: `str()` is the empty string. -/
def Conv.runNoArg : Conv → Except Err Value
  | .pyStr => .ok (.str "")
  | .raises e => .error e

/-- Python's `val in options` membership test for a converted value against
a set of string options (comparison by `==`; a non-string value is unequal
to every string). -/
def memOptions (v : Value) (opts : List String) : Bool :=
  match v with
  | .str s => decide (s ∈ opts)
  | _ => false

/-!
## Scalar sources (`AcornTextSource` and subclasses)

The three scalar strategies share `fromxml` and `_process_val_fxml` from
`AcornTextSource` and differ only in their static `_get_text` (and in
`toxml`).  They are embedded as one family of functions dispatching on the
`SKind`.
-/

/--
`_get_text` of the scalar source family:

* `text` — returns `xml_el.text` (possibly Python `None`);
* `attr` — returns `xml_el.attrib[name]`, raising `KeyError` when absent;
* `subtext` — finds the first child tagged `meta.get('tag', name)`, raising
  `KeyError` when there is none, and returns its text (possibly `None`).
-/
def AcornTextSource.getText (sk : SKind) (meta : RawMeta) (name : String)
    (x : XmlElem) : Except Err (Option String) :=
  match sk with
  | .text => .ok x.textF
  | .attr =>
      match dictGet x.attribF name with
      | some s => .ok (some s)
      | none => .error .keyError
  | .subtext =>
      match x.findTag (meta.tagF.getD name) with
      | some child => .ok child.textF
      | none => .error .keyError

/-- `meta['type'](raw_val)`: looking up the `type` key (`KeyError` when
absent) and calling the converter.  Calling an Acorn class with a positional
argument raises `TypeError` (its `__init__` accepts keywords only). -/
def AcornTextSource.metaType (meta : RawMeta) (raw : Option String) : Except Err Value :=
  match meta.typeF with
  | none => .error .keyError
  | some (.conv c) => c.run raw
  | some (.cls _) => .error .typeError

/-- `_process_val_fxml`: convert the raw value, then enforce `options` when
that key is present and not `None`. -/
def AcornTextSource.processValFxml (meta : RawMeta) (raw : Option String) :
    Except Err Value :=
  match AcornTextSource.metaType meta raw with
  | .error e => .error e
  | .ok val =>
      match meta.optionsF with
      | none => .ok val
      | some opts =>
          if memOptions val opts then .ok val
          else .error (.acornInvalidOption (pyStrValue val))

/--
`AcornTextSource.fromxml`: attempt `_process_val_fxml(_get_text(...))`;
a `KeyError` raised anywhere inside that attempt falls back to
`meta['default']`, and if the `default` key is absent too, the
`AcornException` naming the source's `type` string and the attribute is
raised.  Any other exception propagates.
-/
def AcornTextSource.fromxml (sk : SKind) (meta : RawMeta) (name : String)
    (obj : Obj) (x : XmlElem) : Except Err Obj :=
  match (match AcornTextSource.getText sk meta name x with
         | .ok raw => AcornTextSource.processValFxml meta raw
         | .error e => .error e) with
  | .ok val => .ok (obj.setattr name val)
  | .error .keyError =>
      match meta.defaultF with
      | some d => .ok (obj.setattr name d)
      | none => .error (.acornNoValue sk.typeName name)
  | .error e => .error e

/-- `_process_val_txml`: serialize with `meta.get('str', str)`. -/
def AcornTextSource.processValTxml (meta : RawMeta) (v : Value) : String :=
  (meta.serF.getD .pyStr).run v

/--
`toxml` of the scalar family: read the attribute (an absent attribute
raises `AttributeError`), serialize it, and store it in the element — into
`el.text` for the text source, into `el.attrib[name]` for the attribute
source, or into the text of a freshly appended child tagged
`meta.get('tag', name)` for the child-text source.
-/
def AcornTextSource.toxml (sk : SKind) (meta : RawMeta) (name : String)
    (obj : Obj) (el : XmlElem) : Except Err XmlElem :=
  match obj.getattr name with
  | none => .error .attributeError
  | some v =>
      let s := AcornTextSource.processValTxml meta v
      match sk with
      | .text => .ok (el.setText (some s))
      | .attr => .ok (el.setAttr name s)
      | .subtext => .ok (el.appendChild (.mk (meta.tagF.getD name) [] (some s) []))

/-!
## The source registry and the schema compiler
-/

/-- A source constructor as stored in `Acorn.__sources__`: applied to the
metadata dictionary it yields the compiled entry — the strategy kind
together with the dictionary the source object keeps as `self.meta`. -/
def SrcCons : Type := RawMeta → SrcKind × RawMeta

/-- The registry `Acorn.__sources__`. -/
def Sources : Type := List (String × SrcCons)

/-- The five built-in registrations. -/
def Acorn.sourcesDefault : Sources :=
  [("text", fun m => (.scalar .text, m)),
   ("attr", fun m => (.scalar .attr, m)),
   ("child.text", fun m => (.scalar .subtext, m)),
   ("child", fun m => (.child, m)),
   ("children", fun m => (.children, m))]

/-- `Acorn.register_src`: store the constructor under the name, replacing
any existing registration. -/
def Acorn.register_src (sources : Sources) (name : String) (src : SrcCons) : Sources :=
  dictSet sources name src

/-- `Acorn.unregister_src`: remove the registration when present, silently
do nothing otherwise. -/
def Acorn.unregister_src (sources : Sources) (name : String) : Sources :=
  if (dictGet sources name).isSome then dictDel sources name else sources

/--
`Acorn.parse_content`: for each raw entry look up `meta.get('src', 'attr')`
in the registry — raising the `AcornException` for an unknown name — and
store the constructed source under the attribute name.  The metadata
dictionary is only read (`meta.get`), never written.
-/
def Acorn.parse_content (sources : Sources) :
    List (String × RawMeta) → Except Err (List (String × SrcKind × RawMeta))
  | [] => .ok []
  | (name, meta) :: rest =>
      match dictGet sources (meta.srcKey.getD "attr") with
      | none => .error (.acornNoSource (meta.srcKey.getD "attr"))
      | some cons =>
          match Acorn.parse_content sources rest with
          | .ok parsed => .ok ((name, cons meta) :: parsed)
          | .error e => .error e

/--
`Acorn.parse_content` with the state of the caller's raw schema dictionary
made explicit: alongside the compiled schema it returns each metadata
dictionary as it stands after compilation, so that destructive behaviour
(such as a compiler popping the `src` key) would be observable.  The code
only ever calls `meta.get`, so each dictionary is returned as received.
-/
def Acorn.parse_contentTrack (sources : Sources) :
    List (String × RawMeta) →
    Except Err (List (String × SrcKind × RawMeta) × List (String × RawMeta))
  | [] => .ok ([], [])
  | (name, meta) :: rest =>
      match dictGet sources (meta.srcKey.getD "attr") with
      | none => .error (.acornNoSource (meta.srcKey.getD "attr"))
      | some cons =>
          match Acorn.parse_contentTrack sources rest with
          | .ok (parsed, content) => .ok ((name, cons meta) :: parsed, (name, meta) :: content)
          | .error e => .error e

/-!
## Size lemmas for the recursive algorithms
-/

theorem sizeOf_filter_le {α : Type} [SizeOf α] (p : α → Bool) (l : List α) :
    sizeOf (l.filter p) ≤ sizeOf l := by
  induction l with
  | nil => simp
  | cons a as ih =>
      by_cases hp : p a
      · simp [List.filter, hp]
        omega
      · simp [List.filter, hp]
        omega

theorem XmlElem.sizeOf_mem_children {e el : XmlElem} (h : e ∈ el.childrenL) :
    sizeOf e < sizeOf el := by
  cases el with
  | mk t a x c =>
      simp only [XmlElem.childrenL] at h
      have h1 := List.sizeOf_lt_of_mem h
      simp
      omega

theorem XmlElem.sizeOf_findTag {el e : XmlElem} {tg : String}
    (h : el.findTag tg = some e) : sizeOf e < sizeOf el :=
  XmlElem.sizeOf_mem_children
    (List.mem_of_find?_eq_some (by simpa [XmlElem.findTag] using h))

theorem XmlElem.sizeOf_iterfindTag (el : XmlElem) (tg : String) :
    sizeOf (el.iterfindTag tg) < sizeOf el := by
  cases el with
  | mk t a x c =>
      have h1 := sizeOf_filter_le (fun c0 => decide (XmlElem.tagF c0 = tg)) c
      simp [XmlElem.iterfindTag, XmlElem.childrenL]
      omega

theorem Obj.sizeOf_getattr {o : Obj} {n : String} {v : Value}
    (h : o.getattr n = some v) : sizeOf v < sizeOf o := by
  cases o with
  | mk l =>
      simp only [Obj.getattr, Obj.attrs] at h
      have h1 := sizeOf_dictGet l n v h
      simp
      omega

theorem RawMeta.sizeOf_typeCls {m : RawMeta} {c : AcornClass}
    (h : m.typeF = some (.cls c)) : sizeOf c < sizeOf m := by
  cases m with
  | mk s t d o tg se b =>
      simp only [RawMeta.typeF] at h
      subst h
      simp
      omega

/-!
## Construction (`Acorn.__init__`)
-/

/-- The attribute names of a content list (the keys of `acorn_content`). -/
def contentNames (es : List (String × SrcKind × RawMeta)) : List String :=
  es.map (fun e => e.1)

/-- The kwargs loop of `Acorn.__init__`: set each keyword value whose name
appears in `acorn_content`; unknown names are silently ignored. -/
def Acorn.applyKwargs (es : List (String × SrcKind × RawMeta)) (obj : Obj)
    (kwargs : List (String × Value)) : Obj :=
  kwargs.foldl
    (fun o kv => if kv.1 ∈ contentNames es then o.setattr kv.1 kv.2 else o) obj

mutual
/--
`Acorn.__init__`: run every entry's `create_default` in schema order on a
fresh instance, then apply the keyword arguments (which override defaults,
with no options checking).
-/
def Acorn.init : AcornClass → List (String × Value) → Except Err Obj
  | .mk _ es, kwargs =>
      match Acorn.initEntries es (Obj.mk []) with
      | .ok obj => .ok (Acorn.applyKwargs es obj kwargs)
      | .error e => .error e
termination_by cls _ => (sizeOf cls, 1)

/--
The `create_default` calls of `Acorn.__init__`, entry by entry:

* scalar entries (`BaseAcornSource.create_default`) set the literal
  `meta['default']` when that key holds a non-`None` value;
* single-child entries (`AcornChildSource.create_default`) instead construct
  `meta['type']()` — a default-constructed nested instance — when the
  default marker is present;
* multi-child entries (`AcornChildrenSource.create_default`) always set the
  empty list.
-/
def Acorn.initEntries : List (String × SrcKind × RawMeta) → Obj → Except Err Obj
  | [], obj => .ok obj
  | (name, kind, meta) :: rest, obj =>
      match kind with
      | .scalar _ =>
          match meta.defaultF with
          | some d => Acorn.initEntries rest (obj.setattr name d)
          | none => Acorn.initEntries rest obj
      | .child =>
          if meta.defaultF.isSome then
            match ht : meta.typeF with
            | none => .error .keyError
            | some (.conv c) =>
                match c.runNoArg with
                | .ok v => Acorn.initEntries rest (obj.setattr name v)
                | .error e => .error e
            | some (.cls ccls) =>
                have : sizeOf ccls < sizeOf meta := RawMeta.sizeOf_typeCls ht
                match Acorn.init ccls [] with
                | .ok cobj => Acorn.initEntries rest (obj.setattr name (.obj cobj))
                | .error e => .error e
          else Acorn.initEntries rest obj
      | .children =>
          Acorn.initEntries rest (obj.setattr name (.list []))
termination_by es _ => (sizeOf es, 0)
end

/-!
## Loading (`fromxml`)
-/

mutual
/--
`Acorn.fromxml` on an element: construct a bare instance (`cls()`), then
run every entry's `fromxml` against the source element in schema order and
return the populated instance.  (Loading from a path and firing hooks are
external-collaborator glue around this and are not modelled.)
-/
def Acorn.fromxml (cls : AcornClass) (x : XmlElem) : Except Err Obj :=
  match Acorn.init cls [] with
  | .ok obj => Acorn.entriesFromxml cls.content obj x
  | .error e => .error e
termination_by (sizeOf x, 3, 0)

/-- The per-entry loop of `Acorn.fromxml`: `meta.fromxml(aname, obj, xml_src)`
for every entry, dispatching on the compiled strategy kind. -/
def Acorn.entriesFromxml :
    List (String × SrcKind × RawMeta) → Obj → XmlElem → Except Err Obj
  | [], obj, _ => .ok obj
  | (name, kind, meta) :: rest, obj, x =>
      match kind with
      | .scalar sk =>
          match AcornTextSource.fromxml sk meta name obj x with
          | .ok obj1 => Acorn.entriesFromxml rest obj1 x
          | .error e => .error e
      | .child =>
          match AcornChildSource.fromxml meta name obj x with
          | .ok obj1 => Acorn.entriesFromxml rest obj1 x
          | .error e => .error e
      | .children =>
          match AcornChildrenSource.fromxml meta name obj x with
          | .ok obj1 => Acorn.entriesFromxml rest obj1 x
          | .error e => .error e
termination_by es _ x => (sizeOf x, 2, sizeOf es)

/--
`AcornChildSource.fromxml`: find the first direct child tagged with the
child class's `xml_tag` and recursively load it.  When no child is found
and the entry is not optional, the code attempts to raise the
`AcornException` naming the parent and child tags, but the message
formatting evaluates `self.xml_tag` — an attribute the source objects do
not have — so what actually escapes is an `AttributeError`.

The first two arms model `self.meta['type']`: a `KeyError` when the key is
absent, and an `AttributeError` from `child_cls.xml_tag` when the slot
holds a converter rather than a class.
-/
def AcornChildSource.fromxml (meta : RawMeta) (name : String) (obj : Obj)
    (x : XmlElem) : Except Err Obj :=
  match meta.typeF with
  | none => .error .keyError
  | some (.conv _) => .error .attributeError
  | some (.cls ccls) =>
      match hf : x.findTag ccls.xml_tag with
      | some childEl =>
          have : sizeOf childEl < sizeOf x := XmlElem.sizeOf_findTag hf
          match Acorn.fromxml ccls childEl with
          | .ok cobj => .ok (obj.setattr name (.obj cobj))
          | .error e => .error e
      | none =>
          if meta.optionalK then .ok obj
          else .error .attributeError
termination_by (sizeOf x, 1, 0)

/--
`AcornChildrenSource.fromxml`: assign the list obtained by recursively
loading every direct child tagged with the child class's `xml_tag`, in
document order (the empty list when there are none).
-/
def AcornChildrenSource.fromxml (meta : RawMeta) (name : String) (obj : Obj)
    (x : XmlElem) : Except Err Obj :=
  match meta.typeF with
  | none => .error .keyError
  | some (.conv _) => .error .attributeError
  | some (.cls ccls) =>
      have : sizeOf (x.iterfindTag ccls.xml_tag) < sizeOf x :=
        XmlElem.sizeOf_iterfindTag x ccls.xml_tag
      match Acorn.fromxmlList ccls (x.iterfindTag ccls.xml_tag) with
      | .ok objs => .ok (obj.setattr name (.list objs))
      | .error e => .error e
termination_by (sizeOf x, 1, 0)

/-- The loading loop of the multi-child source: `child_cls.fromxml(child)`
for each matching child, left to right, propagating the first failure. -/
def Acorn.fromxmlList (ccls : AcornClass) : List XmlElem → Except Err (List Obj)
  | [] => .ok []
  | e :: rest =>
      match Acorn.fromxml ccls e with
      | .ok o =>
          match Acorn.fromxmlList ccls rest with
          | .ok os => .ok (o :: os)
          | .error err => .error err
      | .error err => .error err
termination_by els => (sizeOf els, 0, 0)
end

/-!
## Saving (`toxml`)

`Obj` instances carry no runtime class, so the recursive calls that Python
dispatches on the child's runtime class (`child.toxml(...)`) are dispatched
here on the declared child class from the entry's `type` slot; the two
coincide whenever the stored value is an instance of the declared class,
which is the only situation the schema contract contemplates.  A stored
value that is not an Acorn instance has no `toxml` method, which Python
reports as an `AttributeError`.
-/

mutual
/--
`Acorn._toxml` with no destination (the public `toxml` adds only
path-writing and hook glue): create an element tagged with the class's
`xml_tag` and run every entry's `toxml` against it in schema order.
-/
def Acorn.toxml (cls : AcornClass) (obj : Obj) : Except Err XmlElem :=
  Acorn.toxmlEntries cls.content obj (.mk cls.xml_tag [] none [])
termination_by (sizeOf obj, 3, 0)

/-- The per-entry loop of `Acorn._toxml`. -/
def Acorn.toxmlEntries :
    List (String × SrcKind × RawMeta) → Obj → XmlElem → Except Err XmlElem
  | [], _, el => .ok el
  | (name, kind, meta) :: rest, obj, el =>
      match kind with
      | .scalar sk =>
          match AcornTextSource.toxml sk meta name obj el with
          | .ok el1 => Acorn.toxmlEntries rest obj el1
          | .error e => .error e
      | .child =>
          match AcornChildSource.toxml meta name obj el with
          | .ok el1 => Acorn.toxmlEntries rest obj el1
          | .error e => .error e
      | .children =>
          match AcornChildrenSource.toxml meta name obj el with
          | .ok el1 => Acorn.toxmlEntries rest obj el1
          | .error e => .error e
termination_by es obj _ => (sizeOf obj, 2, sizeOf es)

/--
`AcornChildSource.toxml`: read the attribute; when it is absent and the
entry is not optional, raise the `AcornException` (when optional, skip);
when present, recursively serialize the nested instance and append the
resulting element.
-/
def AcornChildSource.toxml (meta : RawMeta) (name : String) (obj : Obj)
    (el : XmlElem) : Except Err XmlElem :=
  match hg : obj.getattr name with
  | none => if meta.optionalK then .ok el else .error (.acornNoAttr name)
  | some (.obj c) =>
      match meta.typeF with
      | some (.cls ccls) =>
          have : sizeOf c < sizeOf obj := by
            have h1 := Obj.sizeOf_getattr hg
            simp at h1
            omega
          match Acorn.toxml ccls c with
          | .ok cel => .ok (el.appendChild cel)
          | .error e => .error e
      | _ => .error .attributeError
  | some _ => .error .attributeError
termination_by (sizeOf obj, 1, 0)

/--
`AcornChildrenSource.toxml`: iterate the stored sequence and recursively
serialize each member, appending each produced element in order.  An absent
attribute raises `AttributeError` (nothing catches it here); a non-sequence
value fails when iterated.
-/
def AcornChildrenSource.toxml (meta : RawMeta) (name : String) (obj : Obj)
    (el : XmlElem) : Except Err XmlElem :=
  match hg : obj.getattr name with
  | none => .error .attributeError
  | some (.list os) =>
      match meta.typeF with
      | some (.cls ccls) =>
          have : sizeOf os < sizeOf obj := by
            have h1 := Obj.sizeOf_getattr hg
            simp at h1
            omega
          Acorn.toxmlList ccls os el
      | _ => .error .attributeError
  | some _ => .error .typeError
termination_by (sizeOf obj, 1, 0)

/-- The saving loop of the multi-child source, left to right. -/
def Acorn.toxmlList (ccls : AcornClass) : List Obj → XmlElem → Except Err XmlElem
  | [], el => .ok el
  | o :: os, el =>
      match Acorn.toxml ccls o with
      | .ok cel => Acorn.toxmlList ccls os (el.appendChild cel)
      | .error e => .error e
termination_by os _ => (sizeOf os, 0, 0)
end

/-!
## Claims about the scalar sources (C3 – C6)
-/

/--
C3, counterexample to the claim as stated.  The scalar `fromxml` guards the
whole conversion attempt with `except KeyError`, so a type converter that
itself raises `KeyError` does **not** propagate: with the raw attribute
value present (`a="x"`), a converter raising `KeyError` and a configured
default `"d"`, the read succeeds with the default instead of propagating
the converter's exception.
-/
theorem converter_keyError_caught :
    AcornTextSource.fromxml .attr
        (.mk (some "attr") (some (.conv (.raises .keyError))) (some (.str "d"))
          none none none false)
        "a" (Obj.mk []) (.mk "e" [("a", "x")] none [])
      = .ok (Obj.mk [("a", .str "d")]) ∧
    AcornTextSource.fromxml .attr
        (.mk (some "attr") (some (.conv (.raises .keyError))) (some (.str "d"))
          none none none false)
        "a" (Obj.mk []) (.mk "e" [("a", "x")] none [])
      ≠ .error .keyError := by
  constructor
  · simp [AcornTextSource.fromxml, AcornTextSource.getText,
          AcornTextSource.processValFxml, AcornTextSource.metaType, Conv.run,
          XmlElem.attribF, dictGet, RawMeta.typeF, RawMeta.defaultF,
          RawMeta.optionsF, Obj.setattr, Obj.attrs, dictSet]
  · simp [AcornTextSource.fromxml, AcornTextSource.getText,
          AcornTextSource.processValFxml, AcornTextSource.metaType, Conv.run,
          XmlElem.attribF, dictGet, RawMeta.typeF, RawMeta.defaultF,
          RawMeta.optionsF]

/--
C3 (amended): on a scalar read whose raw value is present, a type converter
raising any exception other than `KeyError` propagates that exception
unmodified to the caller — it is not wrapped in an `AcornException` and the
configured default is not consulted.  (A converter raising `KeyError` is
instead caught by the missing-value handling.)
-/
theorem converter_error_propagates (sk : SKind) (meta : RawMeta) (name : String)
    (obj : Obj) (x : XmlElem) (raw : Option String) (e : Err)
    (hraw : AcornTextSource.getText sk meta name x = .ok raw)
    (htype : meta.typeF = some (.conv (.raises e)))
    (hne : e ≠ .keyError) :
    AcornTextSource.fromxml sk meta name obj x = .error e := by
  have hcv : (match AcornTextSource.getText sk meta name x with
              | .ok raw => AcornTextSource.processValFxml meta raw
              | .error e => .error e) = (.error e : Except Err Value) := by
    rw [hraw]
    simp [AcornTextSource.processValFxml, AcornTextSource.metaType, htype, Conv.run]
  unfold AcornTextSource.fromxml
  rw [hcv]
  cases e with
  | keyError => exact absurd rfl hne
  | attributeError => rfl
  | typeError => rfl
  | acornNoValue a b => rfl
  | acornInvalidOption a => rfl
  | acornNoSource a => rfl
  | acornNoAttr a => rfl
  | raised a => rfl

/-- Witness for `converter_error_propagates` at a concrete input: an
attribute source whose converter raises a (non-`KeyError`) exception. -/
theorem converter_error_propagates_witness :
    AcornTextSource.fromxml .attr
        (.mk (some "attr") (some (.conv (.raises (.raised "ValueError"))))
          (some (.str "d")) none none none false)
        "a" (Obj.mk []) (.mk "e" [("a", "x")] none [])
      = .error (.raised "ValueError") :=
  converter_error_propagates .attr _ "a" _ _ (some "x") _
    (by simp [AcornTextSource.getText, XmlElem.attribF, dictGet])
    rfl
    (by simp)

/--
C4: failing input for the text source's missing-value contract.  With the
element's own text absent (Python `None`) and a default configured, the
text source does not fall back: `_get_text` returns `None` without raising
`KeyError`, the converter is applied to the absent value, and the stored
result is the string `None`.
-/
theorem text_source_absent_text_converted :
    AcornTextSource.fromxml .text
        (.mk (some "text") (some (.conv .pyStr)) (some (.str "d"))
          none none none false)
        "a" (Obj.mk []) (.mk "e" [] none [])
      = .ok (Obj.mk [("a", .str "None")]) := by
  simp [AcornTextSource.fromxml, AcornTextSource.getText,
        AcornTextSource.processValFxml, AcornTextSource.metaType, Conv.run,
        XmlElem.textF, RawMeta.typeF, RawMeta.defaultF, RawMeta.optionsF,
        Obj.setattr, Obj.attrs, dictSet]

/--
C5, counterexample to the claim as stated.  A text-source scalar field with
no configured default, read from an element with no text, does not raise
the missing-required-value error: the absent value is converted and stored
as the string `None`.
-/
theorem text_source_missing_no_error :
    AcornTextSource.fromxml .text
        (.mk (some "text") (some (.conv .pyStr)) none none none none false)
        "a" (Obj.mk []) (.mk "e" [] none [])
      = .ok (Obj.mk [("a", .str "None")]) := by
  simp [AcornTextSource.fromxml, AcornTextSource.getText,
        AcornTextSource.processValFxml, AcornTextSource.metaType, Conv.run,
        XmlElem.textF, RawMeta.typeF, RawMeta.defaultF, RawMeta.optionsF,
        Obj.setattr, Obj.attrs, dictSet]

/--
C5 (amended): for every scalar entry whose raw-value lookup reports absence
as a lookup failure — the attribute source with the attribute missing and
the child-text source with the named child missing — a read with no
configured default raises the domain missing-required-value error, and a
read with a configured default succeeds and stores exactly that default,
with the type converter never applied to it.
-/
theorem scalar_missing_value_contract (sk : SKind) (meta : RawMeta) (name : String)
    (obj : Obj) (x : XmlElem)
    (hmiss : AcornTextSource.getText sk meta name x = .error .keyError) :
    (meta.defaultF = none →
       AcornTextSource.fromxml sk meta name obj x
         = .error (.acornNoValue sk.typeName name)) ∧
    (∀ d, meta.defaultF = some d →
       AcornTextSource.fromxml sk meta name obj x = .ok (obj.setattr name d)) := by
  have hcv : (match AcornTextSource.getText sk meta name x with
              | .ok raw => AcornTextSource.processValFxml meta raw
              | .error e => .error e) = (.error .keyError : Except Err Value) := by
    rw [hmiss]
  constructor
  · intro hd
    unfold AcornTextSource.fromxml
    rw [hcv, hd]
  · intro d hd
    unfold AcornTextSource.fromxml
    rw [hcv, hd]

/-- Witness for `scalar_missing_value_contract`: an attribute source read
from an element without the attribute, once with a default (whose converter
would raise if it were ever consulted) and once without. -/
theorem scalar_missing_value_contract_witness :
    AcornTextSource.fromxml .attr
        (.mk (some "attr") (some (.conv (.raises (.raised "boom"))))
          (some (.str "d")) none none none false)
        "a" (Obj.mk []) (.mk "e" [] none [])
      = .ok (Obj.mk [("a", .str "d")]) ∧
    AcornTextSource.fromxml .attr
        (.mk (some "attr") (some (.conv .pyStr)) none none none none false)
        "a" (Obj.mk []) (.mk "e" [] none [])
      = .error (.acornNoValue "attrib" "a") := by
  constructor
  · have h := (scalar_missing_value_contract .attr
        (.mk (some "attr") (some (.conv (.raises (.raised "boom"))))
          (some (.str "d")) none none none false)
        "a" (Obj.mk []) (.mk "e" [] none [])
        (by simp [AcornTextSource.getText, XmlElem.attribF, dictGet])).2
        (.str "d") rfl
    simpa [Obj.setattr, Obj.attrs, dictSet] using h
  · have h := (scalar_missing_value_contract .attr
        (.mk (some "attr") (some (.conv .pyStr)) none none none none false)
        "a" (Obj.mk []) (.mk "e" [] none [])
        (by simp [AcornTextSource.getText, XmlElem.attribF, dictGet])).1 rfl
    simpa [SKind.typeName] using h

/--
C6: with an options set configured, a freshly converted value is stored
exactly when it is a member, and raises the domain invalid-option error
otherwise; a default used as a missing-value fallback is stored without
any options check.
-/
theorem options_enforcement (sk : SKind) (meta : RawMeta) (name : String)
    (obj : Obj) (x : XmlElem) (opts : List String)
    (hopts : meta.optionsF = some opts) :
    (∀ raw v, AcornTextSource.getText sk meta name x = .ok raw →
       AcornTextSource.metaType meta raw = .ok v →
       AcornTextSource.fromxml sk meta name obj x =
         (if memOptions v opts then .ok (obj.setattr name v)
          else .error (.acornInvalidOption (pyStrValue v)))) ∧
    (∀ d, AcornTextSource.getText sk meta name x = .error .keyError →
       meta.defaultF = some d →
       AcornTextSource.fromxml sk meta name obj x = .ok (obj.setattr name d)) := by
  constructor
  · intro raw v hraw hconv
    have hcv : (match AcornTextSource.getText sk meta name x with
                | .ok raw => AcornTextSource.processValFxml meta raw
                | .error e => .error e)
        = (if memOptions v opts then .ok v
           else .error (.acornInvalidOption (pyStrValue v)) : Except Err Value) := by
      rw [hraw]
      simp [AcornTextSource.processValFxml, hconv, hopts]
    unfold AcornTextSource.fromxml
    rw [hcv]
    by_cases hmem : memOptions v opts
    · simp [hmem]
    · simp [hmem]
  · intro d hmiss hd
    have hcv : (match AcornTextSource.getText sk meta name x with
                | .ok raw => AcornTextSource.processValFxml meta raw
                | .error e => .error e) = (.error .keyError : Except Err Value) := by
      rw [hmiss]
    unfold AcornTextSource.fromxml
    rw [hcv, hd]

/-- Witness for `options_enforcement`: options `["a", "b"]` accept a raw
`"a"`, reject a raw `"c"` with the invalid-option error, and a default
`"z"` outside the set is stored unchecked when the attribute is absent. -/
theorem options_enforcement_witness :
    AcornTextSource.fromxml .attr
        (.mk (some "attr") (some (.conv .pyStr)) none (some ["a", "b"])
          none none false)
        "f" (Obj.mk []) (.mk "e" [("f", "a")] none [])
      = .ok (Obj.mk [("f", .str "a")]) ∧
    AcornTextSource.fromxml .attr
        (.mk (some "attr") (some (.conv .pyStr)) none (some ["a", "b"])
          none none false)
        "f" (Obj.mk []) (.mk "e" [("f", "c")] none [])
      = .error (.acornInvalidOption "c") ∧
    AcornTextSource.fromxml .attr
        (.mk (some "attr") (some (.conv .pyStr)) (some (.str "z"))
          (some ["a", "b"]) none none false)
        "f" (Obj.mk []) (.mk "e" [] none [])
      = .ok (Obj.mk [("f", .str "z")]) := by
  refine ⟨?_, ?_, ?_⟩
  · have h := (options_enforcement .attr
        (.mk (some "attr") (some (.conv .pyStr)) none (some ["a", "b"]) none none false)
        "f" (Obj.mk []) (.mk "e" [("f", "a")] none []) ["a", "b"] rfl).1
        (some "a") (.str "a")
        (by simp [AcornTextSource.getText, XmlElem.attribF, dictGet])
        (by simp [AcornTextSource.metaType, RawMeta.typeF, Conv.run])
    simpa [memOptions, Obj.setattr, Obj.attrs, dictSet] using h
  · have h := (options_enforcement .attr
        (.mk (some "attr") (some (.conv .pyStr)) none (some ["a", "b"]) none none false)
        "f" (Obj.mk []) (.mk "e" [("f", "c")] none []) ["a", "b"] rfl).1
        (some "c") (.str "c")
        (by simp [AcornTextSource.getText, XmlElem.attribF, dictGet])
        (by simp [AcornTextSource.metaType, RawMeta.typeF, Conv.run])
    simpa [memOptions, pyStrValue, Obj.setattr, Obj.attrs, dictSet] using h
  · have h := (options_enforcement .attr
        (.mk (some "attr") (some (.conv .pyStr)) (some (.str "z"))
          (some ["a", "b"]) none none false)
        "f" (Obj.mk []) (.mk "e" [] none []) ["a", "b"] rfl).2
        (.str "z")
        (by simp [AcornTextSource.getText, XmlElem.attribF, dictGet])
        rfl
    simpa [Obj.setattr, Obj.attrs, dictSet] using h

/-!
## Claims about the registry and the schema compiler (C8 – C10)
-/

/--
C8: the registry contract.  Registering under a name yields the new
constructor on lookup (overwriting any previous registration); a
registration is consulted by subsequent `parse_content` runs; unregistering
an absent name returns the registry unchanged (and, being a total function,
never raises); and compiling an entry whose `src` names an unregistered
strategy fails with the `AcornException` naming that source.
-/
theorem registry_contract :
    (∀ (sources : Sources) (n : String) (cons : SrcCons),
       dictGet (Acorn.register_src sources n cons) n = some cons) ∧
    (∀ (sources : Sources) (n : String) (cons : SrcCons) (name : String) (meta : RawMeta),
       meta.srcKey = some n →
       Acorn.parse_content (Acorn.register_src sources n cons) [(name, meta)]
         = .ok [(name, cons meta)]) ∧
    (∀ (sources : Sources) (n : String),
       dictGet sources n = none → Acorn.unregister_src sources n = sources) ∧
    (∀ (sources : Sources) (name sn : String) (meta : RawMeta),
       meta.srcKey = some sn → dictGet sources sn = none →
       Acorn.parse_content sources [(name, meta)] = .error (.acornNoSource sn)) := by
  refine ⟨?_, ?_, ?_, ?_⟩
  · intro sources n cons
    exact dictGet_dictSet_self sources n cons
  · intro sources n cons name meta hsrc
    have hg : dictGet (Acorn.register_src sources n cons) (meta.srcKey.getD "attr")
        = some cons := by
      rw [hsrc]
      exact dictGet_dictSet_self sources n cons
    simp [Acorn.parse_content, hg]
  · intro sources n hnone
    simp [Acorn.unregister_src, hnone]
  · intro sources name sn meta hsrc hnone
    have hg : dictGet sources (meta.srcKey.getD "attr") = none := by
      rw [hsrc]
      exact hnone
    simp [Acorn.parse_content, hg, hsrc, hnone]

/-- Witness for `registry_contract`: register a custom `"csv"` strategy over
the default registry, compile an entry using it, unregister a name that was
never present, and compile against the unmodified registry where `"csv"` is
unknown. -/
theorem registry_contract_witness :
    dictGet (Acorn.register_src Acorn.sourcesDefault "csv"
        (fun m => (.scalar .text, m))) "csv"
      = some (fun m => (.scalar .text, m)) ∧
    Acorn.parse_content
        (Acorn.register_src Acorn.sourcesDefault "csv" (fun m => (.scalar .text, m)))
        [("x", .mk (some "csv") none none none none none false)]
      = .ok [("x", .scalar .text, .mk (some "csv") none none none none none false)] ∧
    Acorn.unregister_src Acorn.sourcesDefault "csv" = Acorn.sourcesDefault ∧
    Acorn.parse_content Acorn.sourcesDefault
        [("x", .mk (some "csv") none none none none none false)]
      = .error (.acornNoSource "csv") := by
  refine ⟨?_, ?_, ?_, ?_⟩
  · exact registry_contract.1 Acorn.sourcesDefault "csv" (fun m => (.scalar .text, m))
  · exact registry_contract.2.1 Acorn.sourcesDefault "csv" (fun m => (.scalar .text, m))
      "x" (.mk (some "csv") none none none none none false) rfl
  · exact registry_contract.2.2.1 Acorn.sourcesDefault "csv" rfl
  · exact registry_contract.2.2.2 Acorn.sourcesDefault "x" "csv"
      (.mk (some "csv") none none none none none false) rfl rfl

/--
C9: compilation is non-destructive and idempotent.  Tracking the state of
the caller's raw schema dictionaries through `parse_content` (the code only
ever calls `meta.get`), a successful compilation returns every metadata
dictionary exactly as received — in particular each `src` key survives — so
compiling the returned raw schema again succeeds with an identical compiled
schema, and agrees with the plain `parse_content`.
-/
theorem parse_content_nondestructive (sources : Sources)
    (content : List (String × RawMeta))
    (p : List (String × SrcKind × RawMeta)) (c1 : List (String × RawMeta))
    (h : Acorn.parse_contentTrack sources content = .ok (p, c1)) :
    c1 = content ∧
    Acorn.parse_contentTrack sources c1 = .ok (p, c1) ∧
    Acorn.parse_content sources c1 = .ok p := by
  induction content generalizing p c1 with
  | nil =>
      simp only [Acorn.parse_contentTrack] at h
      injection h with h1
      injection h1 with hp hc
      subst hp
      subst hc
      exact ⟨rfl, rfl, rfl⟩
  | cons hd rest ih =>
      obtain ⟨name, meta⟩ := hd
      simp only [Acorn.parse_contentTrack] at h
      cases hdg : dictGet sources (meta.srcKey.getD "attr") with
      | none => rw [hdg] at h; exact absurd h (by simp)
      | some cons =>
          rw [hdg] at h
          cases htr : Acorn.parse_contentTrack sources rest with
          | error e => rw [htr] at h; exact absurd h (by simp)
          | ok pr =>
              obtain ⟨pr1, cr1⟩ := pr
              rw [htr] at h
              simp only at h
              injection h with h1
              injection h1 with hp hc
              subst hp
              subst hc
              obtain ⟨hc1, hc2, hc3⟩ := ih pr1 cr1 htr
              subst hc1
              refine ⟨rfl, ?_, ?_⟩
              · simp only [Acorn.parse_contentTrack, hdg, hc2]
              · simp only [Acorn.parse_content, hdg, hc3]

/-- Witness for `parse_content_nondestructive` on a two-entry raw schema
(one explicit `src`, one defaulted). -/
theorem parse_content_nondestructive_witness :
    Acorn.parse_contentTrack Acorn.sourcesDefault
        [("x", .mk (some "text") none none none none none false),
         ("y", .mk none none none none none none false)]
      = .ok ([("x", .scalar .text, .mk (some "text") none none none none none false),
              ("y", .scalar .attr, .mk none none none none none none false)],
             [("x", .mk (some "text") none none none none none false),
              ("y", .mk none none none none none none false)]) ∧
    Acorn.parse_content Acorn.sourcesDefault
        [("x", .mk (some "text") none none none none none false),
         ("y", .mk none none none none none none false)]
      = .ok [("x", .scalar .text, .mk (some "text") none none none none none false),
             ("y", .scalar .attr, .mk none none none none none none false)] := by
  have h := parse_content_nondestructive Acorn.sourcesDefault
      [("x", .mk (some "text") none none none none none false),
       ("y", .mk none none none none none none false)]
      [("x", .scalar .text, .mk (some "text") none none none none none false),
       ("y", .scalar .attr, .mk none none none none none none false)]
      [("x", .mk (some "text") none none none none none false),
       ("y", .mk none none none none none none false)]
      rfl
  exact ⟨h.2.1, h.2.2⟩

/--
C10: a raw schema entry with no `src` key compiles without failure, and the
compiled entry is built by the built-in attribute strategy (`'attr'`), which
stores the metadata dictionary unchanged.
-/
theorem missing_src_defaults_to_attr (name : String) (meta : RawMeta)
    (rest : List (String × RawMeta)) (p : List (String × SrcKind × RawMeta))
    (hsrc : meta.srcKey = none)
    (hrest : Acorn.parse_content Acorn.sourcesDefault rest = .ok p) :
    Acorn.parse_content Acorn.sourcesDefault ((name, meta) :: rest)
      = .ok ((name, .scalar .attr, meta) :: p) := by
  have hg : dictGet Acorn.sourcesDefault (meta.srcKey.getD "attr")
      = some (fun m => (.scalar .attr, m)) := by
    rw [hsrc]
    rfl
  simp [Acorn.parse_content, hg, hrest]

/-- Witness for `missing_src_defaults_to_attr` on a singleton raw schema. -/
theorem missing_src_defaults_to_attr_witness :
    Acorn.parse_content Acorn.sourcesDefault
        [("x", .mk none (some (.conv .pyStr)) none none none none false)]
      = .ok [("x", .scalar .attr, .mk none (some (.conv .pyStr)) none none none none false)] :=
  missing_src_defaults_to_attr "x"
    (.mk none (some (.conv .pyStr)) none none none none false) [] [] rfl rfl

/-!
## Instance attribute lemmas and construction lemmas
-/

theorem Obj.getattr_setattr_self (o : Obj) (n : String) (v : Value) :
    (o.setattr n v).getattr n = some v := by
  simp [Obj.getattr, Obj.setattr, Obj.attrs, dictGet_dictSet_self]

theorem Obj.getattr_setattr_ne (o : Obj) (n n0 : String) (v : Value) (h : n0 ≠ n) :
    (o.setattr n v).getattr n0 = o.getattr n0 := by
  simp [Obj.getattr, Obj.setattr, Obj.attrs, dictGet_dictSet_ne _ _ _ _ h]

/-- Stepping a successful `initEntries` run past its first entry: the run
continues on an instance that differs from the incoming one at most at that
entry's attribute name. -/
theorem Acorn.initEntries_cons_ok (n0 : String) (k0 : SrcKind) (m0 : RawMeta)
    (rest : List (String × SrcKind × RawMeta)) (obj0 obj : Obj)
    (h : Acorn.initEntries ((n0, k0, m0) :: rest) obj0 = .ok obj) :
    ∃ obj1, Acorn.initEntries rest obj1 = .ok obj ∧
      (obj1 = obj0 ∨ ∃ v, obj1 = obj0.setattr n0 v) := by
  rw [Acorn.initEntries.eq_def] at h
  cases k0 with
  | scalar sk =>
      dsimp only at h
      cases hdef : m0.defaultF with
      | some d =>
          rw [hdef] at h
          exact ⟨_, h, Or.inr ⟨d, rfl⟩⟩
      | none =>
          rw [hdef] at h
          exact ⟨_, h, Or.inl rfl⟩
  | child =>
      dsimp only at h
      by_cases hdef : m0.defaultF.isSome
      · rw [if_pos hdef] at h
        cases ht : m0.typeF with
        | none => rw [ht] at h; exact absurd h (by simp)
        | some tv =>
            cases tv with
            | conv c =>
                rw [ht] at h
                dsimp only at h
                cases hc : c.runNoArg with
                | ok v => rw [hc] at h; exact ⟨_, h, Or.inr ⟨v, rfl⟩⟩
                | error e => rw [hc] at h; exact absurd h (by simp)
            | cls ccls =>
                rw [ht] at h
                dsimp only at h
                cases hi : Acorn.init ccls [] with
                | ok cobj => rw [hi] at h; exact ⟨_, h, Or.inr ⟨.obj cobj, rfl⟩⟩
                | error e => rw [hi] at h; exact absurd h (by simp)
      · rw [if_neg hdef] at h
        exact ⟨_, h, Or.inl rfl⟩
  | children =>
      dsimp only at h
      exact ⟨_, h, Or.inr ⟨.list [], rfl⟩⟩

/-- `initEntries` only touches the attributes named by its entries. -/
theorem Acorn.initEntries_preserves :
    ∀ (es : List (String × SrcKind × RawMeta)) (obj0 obj : Obj),
      Acorn.initEntries es obj0 = .ok obj →
      ∀ n, n ∉ contentNames es → obj.getattr n = obj0.getattr n := by
  intro es
  induction es with
  | nil =>
      intro obj0 obj h n hn
      rw [Acorn.initEntries.eq_def] at h
      dsimp only at h
      injection h with h1
      subst h1
      rfl
  | cons hd rest ih =>
      intro obj0 obj h n hn
      obtain ⟨n0, k0, m0⟩ := hd
      have hcons : contentNames ((n0, k0, m0) :: rest) = n0 :: contentNames rest := rfl
      rw [hcons] at hn
      have hn0 : n ≠ n0 := fun hc => hn (by rw [hc]; exact List.mem_cons_self _ _)
      have hnr : n ∉ contentNames rest := fun hc => hn (List.mem_cons_of_mem _ hc)
      obtain ⟨obj1, hrest, hrel⟩ := Acorn.initEntries_cons_ok n0 k0 m0 rest obj0 obj h
      have hpres := ih obj1 obj hrest n hnr
      cases hrel with
      | inl he => rw [hpres, he]
      | inr he =>
          obtain ⟨v, hv⟩ := he
          rw [hpres, hv, Obj.getattr_setattr_ne _ _ _ _ hn0]

/-- Running the `create_default` loop over a content list with distinct
names leaves every multi-child attribute holding the empty list. -/
theorem Acorn.initEntries_children_empty :
    ∀ (es : List (String × SrcKind × RawMeta)) (name : String) (meta : RawMeta)
      (obj0 obj : Obj),
      (name, SrcKind.children, meta) ∈ es →
      (contentNames es).Nodup →
      Acorn.initEntries es obj0 = .ok obj →
      obj.getattr name = some (.list []) := by
  intro es
  induction es with
  | nil =>
      intro name meta obj0 obj hmem
      simp at hmem
  | cons hd rest ih =>
      intro name meta obj0 obj hmem hnd h
      obtain ⟨n0, k0, m0⟩ := hd
      have hcons : contentNames ((n0, k0, m0) :: rest) = n0 :: contentNames rest := rfl
      rw [hcons] at hnd
      rcases List.mem_cons.mp hmem with hhd | htl
      · simp only [Prod.mk.injEq] at hhd
        obtain ⟨h1, h2, h3⟩ := hhd
        subst h1
        subst h3
        subst h2
        rw [Acorn.initEntries.eq_def] at h
        dsimp only at h
        have hnn : name ∉ contentNames rest := (List.nodup_cons.mp hnd).1
        have hpres := Acorn.initEntries_preserves rest _ obj h name hnn
        rw [hpres, Obj.getattr_setattr_self]
      · obtain ⟨obj1, hrest, _⟩ := Acorn.initEntries_cons_ok n0 k0 m0 rest obj0 obj h
        exact ih name meta obj1 obj htl (List.nodup_cons.mp hnd).2 hrest

/-- A successful multi-child load relates matching children and loaded
objects one to one, in order. -/
theorem Acorn.fromxmlList_forall2 (ccls : AcornClass) :
    ∀ (els : List XmlElem) (objs : List Obj),
      Acorn.fromxmlList ccls els = .ok objs →
      List.Forall₂ (fun e o => Acorn.fromxml ccls e = .ok o) els objs := by
  intro els
  induction els with
  | nil =>
      intro objs h
      rw [Acorn.fromxmlList.eq_def] at h
      dsimp only at h
      injection h with h1
      subst h1
      exact List.Forall₂.nil
  | cons e rest ih =>
      intro objs h
      rw [Acorn.fromxmlList.eq_def] at h
      dsimp only at h
      cases hf : Acorn.fromxml ccls e with
      | ok o =>
          rw [hf] at h
          dsimp only at h
          cases hr : Acorn.fromxmlList ccls rest with
          | ok os =>
              rw [hr] at h
              injection h with h1
              subst h1
              exact List.Forall₂.cons hf (ih os hr)
          | error err => rw [hr] at h; exact absurd h (by simp)
      | error err => rw [hf] at h; exact absurd h (by simp)

/-!
## Claims about the child sources (C2, C7)
-/

/--
C2: failing input for the missing-required-child claim.  Loading `<p/>`
against a schema with a required (non-optional) single-child entry whose
child class is tagged `c` fails — but with `AttributeError`, not with the
`AcornException` naming the parent tag `p` and child tag `c`: formatting
that message evaluates `self.xml_tag` on the source object, and sources
have no `xml_tag` attribute.
-/
theorem required_child_missing_attributeError :
    Acorn.fromxml
        (.mk "p" [("kid", SrcKind.child,
            .mk (some "child") (some (.cls (.mk "c" []))) none none none none false)])
        (.mk "p" [] none [])
      = .error .attributeError ∧
    Err.isAcorn .attributeError = false := by
  constructor
  · simp [Acorn.fromxml, Acorn.entriesFromxml, AcornChildSource.fromxml, Acorn.init,
          Acorn.initEntries, Acorn.applyKwargs, AcornClass.content, RawMeta.typeF,
          RawMeta.defaultF, XmlElem.findTag, XmlElem.childrenL, RawMeta.optionalK,
          AcornClass.xml_tag]
  · rfl

/--
C7: the multi-child contract.  Construction initializes a multi-child
attribute to the empty list unconditionally (whatever `default` is
configured); a read with no matching direct children assigns the empty
list — never an error, never an unset attribute; and a successful read
assigns one recursively loaded object per matching direct child, in
document order.
-/
theorem multichild_contract :
    (∀ (cls : AcornClass) (name : String) (meta : RawMeta) (obj : Obj),
       (name, SrcKind.children, meta) ∈ cls.content →
       (contentNames cls.content).Nodup →
       Acorn.init cls [] = .ok obj →
       obj.getattr name = some (.list [])) ∧
    (∀ (meta : RawMeta) (name : String) (obj : Obj) (x : XmlElem) (ccls : AcornClass),
       meta.typeF = some (.cls ccls) →
       x.iterfindTag ccls.xml_tag = [] →
       AcornChildrenSource.fromxml meta name obj x
         = .ok (obj.setattr name (.list []))) ∧
    (∀ (meta : RawMeta) (name : String) (obj : Obj) (x : XmlElem) (ccls : AcornClass)
       (objs : List Obj),
       meta.typeF = some (.cls ccls) →
       Acorn.fromxmlList ccls (x.iterfindTag ccls.xml_tag) = .ok objs →
       AcornChildrenSource.fromxml meta name obj x
         = .ok (obj.setattr name (.list objs)) ∧
       List.Forall₂ (fun e o => Acorn.fromxml ccls e = .ok o)
         (x.iterfindTag ccls.xml_tag) objs) := by
  refine ⟨?_, ?_, ?_⟩
  · intro cls name meta obj hmem hnd h
    obtain ⟨tag, es⟩ := cls
    rw [Acorn.init.eq_def] at h
    dsimp only at h
    cases hie : Acorn.initEntries es (Obj.mk []) with
    | ok obj2 =>
        rw [hie] at h
        dsimp only [Acorn.applyKwargs, List.foldl] at h
        injection h with h1
        subst h1
        exact Acorn.initEntries_children_empty es name meta _ _ hmem hnd hie
    | error e => rw [hie] at h; exact absurd h (by simp)
  · intro meta name obj x ccls ht hempty
    rw [AcornChildrenSource.fromxml.eq_def, ht]
    dsimp only
    rw [hempty]
    rw [Acorn.fromxmlList.eq_def]
  · intro meta name obj x ccls objs ht hlist
    constructor
    · rw [AcornChildrenSource.fromxml.eq_def, ht]
      dsimp only
      rw [hlist]
    · exact Acorn.fromxmlList_forall2 ccls _ objs hlist

/-- Witness for `multichild_contract`: a class whose multi-child entry even
carries a configured default still constructs with the empty list; an
element with two matching children (and one non-matching) loads a
two-element list in order; an element with none loads the empty list. -/
theorem multichild_contract_witness :
    (Obj.mk [("kids", Value.list [])]).getattr "kids" = some (.list []) ∧
    AcornChildrenSource.fromxml
        (.mk (some "children") (some (.cls (.mk "c" []))) none none none none false)
        "kids" (Obj.mk [])
        (.mk "p" [] none [.mk "d" [] none [], .mk "c" [] none [], .mk "c" [] none []])
      = .ok (Obj.mk [("kids", .list [Obj.mk [], Obj.mk []])]) ∧
    AcornChildrenSource.fromxml
        (.mk (some "children") (some (.cls (.mk "c" []))) none none none none false)
        "kids" (Obj.mk []) (.mk "p" [] none [.mk "d" [] none []])
      = .ok (Obj.mk [("kids", .list [])]) := by
  refine ⟨?_, ?_, ?_⟩
  · exact multichild_contract.1
      (.mk "p" [("kids", SrcKind.children,
          .mk (some "children") (some (.cls (.mk "c" []))) (some (.str "junk"))
            none none none false)])
      "kids"
      (.mk (some "children") (some (.cls (.mk "c" []))) (some (.str "junk"))
        none none none false)
      (Obj.mk [("kids", Value.list [])])
      (by simp [AcornClass.content])
      (by simp [contentNames, AcornClass.content])
      (by simp [Acorn.init, Acorn.initEntries, Acorn.applyKwargs, Obj.setattr,
                Obj.attrs, dictSet])
  · have h := (multichild_contract.2.2
      (.mk (some "children") (some (.cls (.mk "c" []))) none none none none false)
      "kids" (Obj.mk [])
      (.mk "p" [] none [.mk "d" [] none [], .mk "c" [] none [], .mk "c" [] none []])
      (.mk "c" []) [Obj.mk [], Obj.mk []]
      rfl
      (by simp [XmlElem.iterfindTag, XmlElem.childrenL, XmlElem.tagF,
                AcornClass.xml_tag, Acorn.fromxmlList, Acorn.fromxml,
                Acorn.entriesFromxml, Acorn.init, Acorn.initEntries,
                Acorn.applyKwargs, AcornClass.content])).1
    simpa [Obj.setattr, Obj.attrs, dictSet] using h
  · have h := multichild_contract.2.1
      (.mk (some "children") (some (.cls (.mk "c" []))) none none none none false)
      "kids" (Obj.mk []) (.mk "p" [] none [.mk "d" [] none []])
      (.mk "c" [])
      rfl
      (by simp [XmlElem.iterfindTag, XmlElem.childrenL, XmlElem.tagF,
                AcornClass.xml_tag])
    simpa [Obj.setattr, Obj.attrs, dictSet] using h

/-!
## Round-trip apparatus (C1)

A schema entry writes to exactly one location of the produced element — the
element's own text, one attribute slot, or children of one tag.  The
round-trip property needs the entries of a class to write to pairwise
distinct locations (a dictionary-shaped schema already guarantees distinct
attribute names and distinct entry names).
-/

/-- The XML location written by a schema entry. -/
inductive Target : Type where
  | text : Target
  | attrKey : String → Target
  | childTag : String → Target
deriving DecidableEq

/-- The location a compiled entry serializes into:  the element text for a
text entry, the attribute named by the entry for an attribute entry, the
override tag (defaulting to the entry name) for a child-text entry, and the
child class's `xml_tag` for the child/children entries (provided the `type`
slot holds a class). -/
def Acorn.targetOf : String × SrcKind × RawMeta → Option Target
  | (_, .scalar .text, _) => some .text
  | (name, .scalar .attr, _) => some (.attrKey name)
  | (name, .scalar .subtext, m) => some (.childTag (m.tagF.getD name))
  | (_, .child, m) =>
      match m.typeF with
      | some (.cls c) => some (.childTag c.xml_tag)
      | _ => none
  | (_, .children, m) =>
      match m.typeF with
      | some (.cls c) => some (.childTag c.xml_tag)
      | _ => none

/-- All locations written by a content list. -/
def Acorn.targetsOf (es : List (String × SrcKind × RawMeta)) : List Target :=
  es.filterMap Acorn.targetOf

mutual
/--
A schema shape under which serialization is invertible: entry names and
write locations are pairwise distinct, every scalar entry converts with the
string type (the library's converter whose composition with the default
serializer is the identity on strings), and every child entry names a class
of the same shape.
-/
def Acorn.goodSchema : AcornClass → Bool
  | .mk _ es =>
      decide (contentNames es).Nodup && decide (Acorn.targetsOf es).Nodup &&
        Acorn.goodEntries es
termination_by cls => (sizeOf cls, 1)

/-- Entry-wise part of `goodSchema`. -/
def Acorn.goodEntries : List (String × SrcKind × RawMeta) → Bool
  | [] => true
  | (_, kind, meta) :: rest =>
      (match kind with
       | .scalar _ =>
           match meta.typeF with
           | some (.conv .pyStr) => true
           | _ => false
       | .child =>
           match ht : meta.typeF with
           | some (.cls c) =>
               have : sizeOf c < sizeOf meta := RawMeta.sizeOf_typeCls ht
               Acorn.goodSchema c
           | _ => false
       | .children =>
           match ht : meta.typeF with
           | some (.cls c) =>
               have : sizeOf c < sizeOf meta := RawMeta.sizeOf_typeCls ht
               Acorn.goodSchema c
           | _ => false) &&
      Acorn.goodEntries rest
termination_by es => (sizeOf es, 0)
end

mutual
/--
An instance all of whose schema-backed attributes are populated with values
valid for their entries: scalars hold strings satisfying any configured
options, single-child attributes hold instances valid for the child class,
multi-child attributes hold lists of such instances.
-/
def Acorn.validFor : AcornClass → Obj → Bool
  | .mk _ es, obj => Acorn.validEntries es obj
termination_by _ obj => (sizeOf obj, 2, 0)

/-- Entry-wise part of `validFor`. -/
def Acorn.validEntries : List (String × SrcKind × RawMeta) → Obj → Bool
  | [], _ => true
  | (name, kind, meta) :: rest, obj =>
      (match kind with
       | .scalar _ =>
           match obj.getattr name, meta.optionsF with
           | some (.str s), some opts => decide (s ∈ opts)
           | some (.str _), none => true
           | _, _ => false
       | .child =>
           match hg : obj.getattr name, meta.typeF with
           | some (.obj c), some (.cls ccls) =>
               have : sizeOf c < sizeOf obj := by
                 have h1 := Obj.sizeOf_getattr hg
                 simp at h1
                 omega
               Acorn.validFor ccls c
           | _, _ => false
       | .children =>
           match hg : obj.getattr name, meta.typeF with
           | some (.list os), some (.cls ccls) =>
               have : sizeOf os < sizeOf obj := by
                 have h1 := Obj.sizeOf_getattr hg
                 simp at h1
                 omega
               Acorn.validList ccls os
           | _, _ => false) &&
      Acorn.validEntries rest obj
termination_by es obj => (sizeOf obj, 1, sizeOf es)

/-- `validFor` for each member of a multi-child list. -/
def Acorn.validList : AcornClass → List Obj → Bool
  | _, [] => true
  | ccls, o :: os => Acorn.validFor ccls o && Acorn.validList ccls os
termination_by _ os => (sizeOf os, 0, 0)
end

/-- Python `==` between the scalar values the engine stores: strings compare
by content; the default object comparison (identity) is not represented and
conservatively compares unequal. -/
def Value.pyEq : Value → Value → Bool
  | .str a, .str b => decide (a = b)
  | _, _ => false

mutual
/-- The claim's recursive instance comparison over one schema: equal scalar
attribute values, recursively equal single children, equal-length
recursively element-wise equal multi-child lists. -/
def Acorn.agreesOn : AcornClass → Obj → Obj → Bool
  | .mk _ es, a, b => Acorn.agreeEntries es a b
termination_by _ a _ => (sizeOf a, 2, 0)

/-- Entry-wise part of `agreesOn`. -/
def Acorn.agreeEntries : List (String × SrcKind × RawMeta) → Obj → Obj → Bool
  | [], _, _ => true
  | (name, kind, meta) :: rest, a, b =>
      (match kind with
       | .scalar _ =>
           match a.getattr name, b.getattr name with
           | some va, some vb => va.pyEq vb
           | _, _ => false
       | .child =>
           match hg : a.getattr name, b.getattr name, meta.typeF with
           | some (.obj ca), some (.obj cb), some (.cls ccls) =>
               have : sizeOf ca < sizeOf a := by
                 have h1 := Obj.sizeOf_getattr hg
                 simp at h1
                 omega
               Acorn.agreesOn ccls ca cb
           | _, _, _ => false
       | .children =>
           match hg : a.getattr name, b.getattr name, meta.typeF with
           | some (.list la), some (.list lb), some (.cls ccls) =>
               have : sizeOf la < sizeOf a := by
                 have h1 := Obj.sizeOf_getattr hg
                 simp at h1
                 omega
               Acorn.agreeLists ccls la lb
           | _, _, _ => false) &&
      Acorn.agreeEntries rest a b
termination_by es a _ => (sizeOf a, 1, sizeOf es)

/-- `agreesOn` element-wise over two multi-child lists of equal length. -/
def Acorn.agreeLists : AcornClass → List Obj → List Obj → Bool
  | _, [], [] => true
  | ccls, x :: xs, y :: ys => Acorn.agreesOn ccls x y && Acorn.agreeLists ccls xs ys
  | _, _, _ => false
termination_by _ xs _ => (sizeOf xs, 0, 0)
end

@[simp] theorem XmlElem.tagF_setText (el : XmlElem) (x : Option String) :
    (el.setText x).tagF = el.tagF := by cases el; rfl
@[simp] theorem XmlElem.attribF_setText (el : XmlElem) (x : Option String) :
    (el.setText x).attribF = el.attribF := by cases el; rfl
@[simp] theorem XmlElem.textF_setText (el : XmlElem) (x : Option String) :
    (el.setText x).textF = x := by cases el; rfl
@[simp] theorem XmlElem.childrenL_setText (el : XmlElem) (x : Option String) :
    (el.setText x).childrenL = el.childrenL := by cases el; rfl

@[simp] theorem XmlElem.tagF_setAttr (el : XmlElem) (n s : String) :
    (el.setAttr n s).tagF = el.tagF := by cases el; rfl
@[simp] theorem XmlElem.attribF_setAttr (el : XmlElem) (n s : String) :
    (el.setAttr n s).attribF = dictSet el.attribF n s := by cases el; rfl
@[simp] theorem XmlElem.textF_setAttr (el : XmlElem) (n s : String) :
    (el.setAttr n s).textF = el.textF := by cases el; rfl
@[simp] theorem XmlElem.childrenL_setAttr (el : XmlElem) (n s : String) :
    (el.setAttr n s).childrenL = el.childrenL := by cases el; rfl

@[simp] theorem XmlElem.tagF_appendChild (el c : XmlElem) :
    (el.appendChild c).tagF = el.tagF := by cases el; rfl
@[simp] theorem XmlElem.attribF_appendChild (el c : XmlElem) :
    (el.appendChild c).attribF = el.attribF := by cases el; rfl
@[simp] theorem XmlElem.textF_appendChild (el c : XmlElem) :
    (el.appendChild c).textF = el.textF := by cases el; rfl
@[simp] theorem XmlElem.childrenL_appendChild (el c : XmlElem) :
    (el.appendChild c).childrenL = el.childrenL ++ [c] := by cases el; rfl

theorem filterFalse {α : Type} (p : α → Bool) (l : List α)
    (h : ∀ a ∈ l, p a = false) : l.filter p = [] :=
  List.filter_eq_nil_iff.mpr (fun a ha => by simp [h a ha])

theorem filterTrue {α : Type} (p : α → Bool) (l : List α)
    (h : ∀ a ∈ l, p a = true) : l.filter p = l :=
  List.filter_eq_self.mpr (fun a ha => h a ha)

theorem findAppendFalse {α : Type} (p : α → Bool) (l1 l2 : List α)
    (h : ∀ a ∈ l1, p a = false) : (l1 ++ l2).find? p = l2.find? p := by
  rw [List.find?_append]
  rw [List.find?_eq_none.mpr (fun a ha => by simp [h a ha])]
  rfl

theorem findConsTrue {α : Type} (p : α → Bool) (a : α) (l : List α)
    (h : p a = true) : (a :: l).find? p = some a :=
  List.find?_cons_of_pos l h

/-!
## Destructuring lemmas for the round-trip predicates
-/

theorem Acorn.goodEntries_cons_scalar (sk : SKind) (n : String) (m : RawMeta)
    (rest : List (String × SrcKind × RawMeta))
    (h : Acorn.goodEntries ((n, .scalar sk, m) :: rest) = true) :
    m.typeF = some (.conv .pyStr) ∧ Acorn.goodEntries rest = true := by
  rw [Acorn.goodEntries.eq_def] at h
  dsimp only at h
  rw [Bool.and_eq_true] at h
  obtain ⟨h1, h2⟩ := h
  refine ⟨?_, h2⟩
  cases htk : m.typeF with
  | none => rw [htk] at h1; exact absurd h1 (by simp)
  | some tv =>
      cases tv with
      | conv c =>
          cases c with
          | pyStr => rfl
          | raises e => rw [htk] at h1; exact absurd h1 (by simp)
      | cls ccls => rw [htk] at h1; exact absurd h1 (by simp)

theorem Acorn.goodEntries_cons_child (n : String) (m : RawMeta)
    (rest : List (String × SrcKind × RawMeta))
    (h : Acorn.goodEntries ((n, .child, m) :: rest) = true) :
    (∃ ccls, m.typeF = some (.cls ccls) ∧ Acorn.goodSchema ccls = true) ∧
    Acorn.goodEntries rest = true := by
  rw [Acorn.goodEntries.eq_def] at h
  dsimp only at h
  rw [Bool.and_eq_true] at h
  obtain ⟨h1, h2⟩ := h
  refine ⟨?_, h2⟩
  cases htk : m.typeF with
  | none => rw [htk] at h1; exact absurd h1 (by simp)
  | some tv =>
      cases tv with
      | conv c => rw [htk] at h1; exact absurd h1 (by simp)
      | cls ccls =>
          rw [htk] at h1
          dsimp only at h1
          exact ⟨ccls, rfl, h1⟩

theorem Acorn.goodEntries_cons_children (n : String) (m : RawMeta)
    (rest : List (String × SrcKind × RawMeta))
    (h : Acorn.goodEntries ((n, .children, m) :: rest) = true) :
    (∃ ccls, m.typeF = some (.cls ccls) ∧ Acorn.goodSchema ccls = true) ∧
    Acorn.goodEntries rest = true := by
  rw [Acorn.goodEntries.eq_def] at h
  dsimp only at h
  rw [Bool.and_eq_true] at h
  obtain ⟨h1, h2⟩ := h
  refine ⟨?_, h2⟩
  cases htk : m.typeF with
  | none => rw [htk] at h1; exact absurd h1 (by simp)
  | some tv =>
      cases tv with
      | conv c => rw [htk] at h1; exact absurd h1 (by simp)
      | cls ccls =>
          rw [htk] at h1
          dsimp only at h1
          exact ⟨ccls, rfl, h1⟩

theorem Acorn.validEntries_cons_scalar (sk : SKind) (n : String) (m : RawMeta)
    (rest : List (String × SrcKind × RawMeta)) (obj : Obj)
    (h : Acorn.validEntries ((n, .scalar sk, m) :: rest) obj = true) :
    (∃ s, obj.getattr n = some (.str s) ∧
       ∀ opts, m.optionsF = some opts → s ∈ opts) ∧
    Acorn.validEntries rest obj = true := by
  rw [Acorn.validEntries.eq_def] at h
  dsimp only at h
  rw [Bool.and_eq_true] at h
  obtain ⟨h1, h2⟩ := h
  refine ⟨?_, h2⟩
  cases hg : obj.getattr n with
  | none => rw [hg] at h1; exact absurd h1 (by simp)
  | some v =>
      cases v with
      | str s =>
          rw [hg] at h1
          refine ⟨s, rfl, ?_⟩
          intro opts hopts
          rw [hopts] at h1
          dsimp only at h1
          exact of_decide_eq_true h1
      | obj c => rw [hg] at h1; cases m.optionsF <;> exact absurd h1 (by simp)
      | list os => rw [hg] at h1; cases m.optionsF <;> exact absurd h1 (by simp)

theorem Acorn.validEntries_cons_child (n : String) (m : RawMeta)
    (rest : List (String × SrcKind × RawMeta)) (obj : Obj)
    (h : Acorn.validEntries ((n, .child, m) :: rest) obj = true) :
    (∃ c ccls, obj.getattr n = some (.obj c) ∧ m.typeF = some (.cls ccls) ∧
       Acorn.validFor ccls c = true) ∧
    Acorn.validEntries rest obj = true := by
  rw [Acorn.validEntries.eq_def] at h
  dsimp only at h
  rw [Bool.and_eq_true] at h
  obtain ⟨h1, h2⟩ := h
  refine ⟨?_, h2⟩
  cases hg : obj.getattr n with
  | none => rw [hg] at h1; cases m.typeF <;> exact absurd h1 (by simp)
  | some v =>
      cases v with
      | str s => rw [hg] at h1; cases m.typeF <;> exact absurd h1 (by simp)
      | list os => rw [hg] at h1; cases m.typeF <;> exact absurd h1 (by simp)
      | obj c =>
          rw [hg] at h1
          cases htk : m.typeF with
          | none => rw [htk] at h1; exact absurd h1 (by simp)
          | some tv =>
              cases tv with
              | conv cv => rw [htk] at h1; exact absurd h1 (by simp)
              | cls ccls =>
                  rw [htk] at h1
                  dsimp only at h1
                  exact ⟨c, ccls, rfl, rfl, h1⟩

theorem Acorn.validEntries_cons_children (n : String) (m : RawMeta)
    (rest : List (String × SrcKind × RawMeta)) (obj : Obj)
    (h : Acorn.validEntries ((n, .children, m) :: rest) obj = true) :
    (∃ os ccls, obj.getattr n = some (.list os) ∧ m.typeF = some (.cls ccls) ∧
       Acorn.validList ccls os = true) ∧
    Acorn.validEntries rest obj = true := by
  rw [Acorn.validEntries.eq_def] at h
  dsimp only at h
  rw [Bool.and_eq_true] at h
  obtain ⟨h1, h2⟩ := h
  refine ⟨?_, h2⟩
  cases hg : obj.getattr n with
  | none => rw [hg] at h1; cases m.typeF <;> exact absurd h1 (by simp)
  | some v =>
      cases v with
      | str s => rw [hg] at h1; cases m.typeF <;> exact absurd h1 (by simp)
      | obj c => rw [hg] at h1; cases m.typeF <;> exact absurd h1 (by simp)
      | list os =>
          rw [hg] at h1
          cases htk : m.typeF with
          | none => rw [htk] at h1; exact absurd h1 (by simp)
          | some tv =>
              cases tv with
              | conv cv => rw [htk] at h1; exact absurd h1 (by simp)
              | cls ccls =>
                  rw [htk] at h1
                  dsimp only at h1
                  exact ⟨os, ccls, rfl, rfl, h1⟩

theorem Acorn.validList_forall (ccls : AcornClass) :
    ∀ os, Acorn.validList ccls os = true → ∀ o ∈ os, Acorn.validFor ccls o = true := by
  intro os
  induction os with
  | nil => intro _ o ho; simp at ho
  | cons o os ih =>
      intro h b hb
      rw [Acorn.validList.eq_def] at h
      dsimp only at h
      rw [Bool.and_eq_true] at h
      rcases List.mem_cons.mp hb with hb | hb
      · rw [hb]; exact h.1
      · exact ih h.2 b hb

/-- `meta.get('str', str)` always yields the string serializer (the only
serializer in the model). -/
theorem serGetD_pyStr (o : Option Ser) : o.getD .pyStr = .pyStr := by
  cases o with
  | none => rfl
  | some s => cases s; rfl

theorem Acorn.targetsOf_cons (e : String × SrcKind × RawMeta)
    (rest : List (String × SrcKind × RawMeta)) (te : Target)
    (h : Acorn.targetOf e = some te) :
    Acorn.targetsOf (e :: rest) = te :: Acorn.targetsOf rest := by
  simp [Acorn.targetsOf, List.filterMap_cons, h]

/-- Serializing a valid multi-child list appends one element per member, in
order, each of which round-trips (given the member-level facts). -/
theorem Acorn.toxmlList_spec (ccls : AcornClass) :
    ∀ (os : List Obj) (el : XmlElem),
      (∀ o ∈ os, ∃ cel, Acorn.toxml ccls o = .ok cel ∧ cel.tagF = ccls.xml_tag ∧
         ∃ o2, Acorn.fromxml ccls cel = .ok o2 ∧ Acorn.agreesOn ccls o o2 = true) →
      ∃ cels, Acorn.toxmlList ccls os el
          = .ok (XmlElem.mk el.tagF el.attribF el.textF (el.childrenL ++ cels)) ∧
        List.Forall₂ (fun o cel => cel.tagF = ccls.xml_tag ∧
          ∃ o2, Acorn.fromxml ccls cel = .ok o2 ∧ Acorn.agreesOn ccls o o2 = true)
          os cels := by
  intro os
  induction os with
  | nil =>
      intro el _
      refine ⟨[], ?_, List.Forall₂.nil⟩
      rw [Acorn.toxmlList.eq_def]
      cases el
      simp [XmlElem.tagF, XmlElem.attribF, XmlElem.textF, XmlElem.childrenL]
  | cons o os ih =>
      intro el h
      obtain ⟨cel, hw, htag, hrt⟩ := h o (List.mem_cons_self _ _)
      obtain ⟨cels, hrest, hf2⟩ :=
        ih (el.appendChild cel) (fun b hb => h b (List.mem_cons_of_mem _ hb))
      refine ⟨cel :: cels, ?_, List.Forall₂.cons ⟨htag, hrt⟩ hf2⟩
      rw [Acorn.toxmlList.eq_def]
      dsimp only
      rw [hw]
      dsimp only
      rw [hrest]
      simp

/-- Loading back a list of elements that each round-trip yields a list of
instances agreeing member-wise with the originals. -/
theorem Acorn.fromxmlList_of_pairs (ccls : AcornClass) :
    ∀ (os : List Obj) (cels : List XmlElem),
      List.Forall₂ (fun o cel => ∃ o2, Acorn.fromxml ccls cel = .ok o2 ∧
        Acorn.agreesOn ccls o o2 = true) os cels →
      ∃ os2, Acorn.fromxmlList ccls cels = .ok os2 ∧
        Acorn.agreeLists ccls os os2 = true := by
  intro os cels hf
  induction hf with
  | nil =>
      refine ⟨[], ?_, ?_⟩
      · rw [Acorn.fromxmlList.eq_def]
      · rw [Acorn.agreeLists.eq_def]
  | cons hrel hrest ih =>
      obtain ⟨o2, hfx, hag⟩ := hrel
      obtain ⟨os2, hl, hags⟩ := ih
      refine ⟨o2 :: os2, ?_, ?_⟩
      · rw [Acorn.fromxmlList.eq_def]
        dsimp only
        rw [hfx]
        dsimp only
        rw [hl]
      · rw [Acorn.agreeLists.eq_def]
        dsimp only
        rw [hag, hags]
        rfl

/-!
## The round-trip proof (C1)
-/

theorem forall2_mem_right {α β : Type} {R : α → β → Prop} :
    ∀ {as : List α} {bs : List β}, List.Forall₂ R as bs → ∀ b ∈ bs, ∃ a, R a b := by
  intro as bs h
  induction h with
  | nil => intro b hb; simp at hb
  | cons hr ht ih =>
      intro b hb
      rcases List.mem_cons.mp hb with hb | hb
      · exact ⟨_, hb ▸ hr⟩
      · exact ih b hb

set_option maxHeartbeats 2000000

theorem Acorn.roundtripEntries (N : Nat) (obj : Obj) (hobjN : sizeOf obj ≤ N)
    (IH : ∀ o : Obj, sizeOf o < N → ∀ c, Acorn.goodSchema c = true →
      Acorn.validFor c o = true →
      ∃ el o2, Acorn.toxml c o = .ok el ∧ el.tagF = c.xml_tag ∧
        Acorn.fromxml c el = .ok o2 ∧ Acorn.agreesOn c o o2 = true) :
    ∀ (es : List (String × SrcKind × RawMeta)) (el0 : XmlElem),
      Acorn.goodEntries es = true →
      Acorn.validEntries es obj = true →
      (Acorn.targetsOf es).Nodup →
      (∀ c ∈ el0.childrenL, Target.childTag c.tagF ∉ Acorn.targetsOf es) →
      ∃ el1,
        Acorn.toxmlEntries es obj el0 = .ok el1 ∧
        el1.tagF = el0.tagF ∧
        (∀ n, Target.attrKey n ∉ Acorn.targetsOf es →
           dictGet el1.attribF n = dictGet el0.attribF n) ∧
        (Target.text ∉ Acorn.targetsOf es → el1.textF = el0.textF) ∧
        (∃ added, el1.childrenL = el0.childrenL ++ added ∧
           ∀ c ∈ added, Target.childTag c.tagF ∈ Acorn.targetsOf es) ∧
        (∀ obj0, (contentNames es).Nodup →
           ∃ objR, Acorn.entriesFromxml es obj0 el1 = .ok objR ∧
             Acorn.agreeEntries es obj objR = true ∧
             (∀ n, n ∉ contentNames es → objR.getattr n = obj0.getattr n)) := by
  intro es
  induction es with
  | nil =>
      intro el0 _ _ _ _
      refine ⟨el0, ?_, rfl, fun n _ => rfl, fun _ => rfl, ⟨[], by simp, by simp⟩, ?_⟩
      · rw [Acorn.toxmlEntries.eq_def]
      · intro obj0 _
        refine ⟨obj0, ?_, ?_, fun n _ => rfl⟩
        · rw [Acorn.entriesFromxml.eq_def]
        · rw [Acorn.agreeEntries.eq_def]
  | cons e rest ihes =>
      intro el0 hgood hvalid hnodup hdisj
      obtain ⟨name, kind, meta⟩ := e
      cases kind with
      | scalar sk =>
          obtain ⟨htype, hgrest⟩ := Acorn.goodEntries_cons_scalar sk name meta rest hgood
          obtain ⟨⟨s, hgat, hopt⟩, hvrest⟩ :=
            Acorn.validEntries_cons_scalar sk name meta rest obj hvalid
          have hser : AcornTextSource.processValTxml meta (.str s) = s := by
            unfold AcornTextSource.processValTxml
            rw [serGetD_pyStr]
            rfl
          have hpv : AcornTextSource.processValFxml meta (some s) = .ok (.str s) := by
            unfold AcornTextSource.processValFxml AcornTextSource.metaType
            rw [htype]
            dsimp only [Conv.run]
            cases hopts : meta.optionsF with
            | none => rfl
            | some opts =>
                have hm := hopt opts hopts
                simp [memOptions, hm]
          cases sk with
          | text =>
              have hte : Acorn.targetsOf ((name, .scalar .text, meta) :: rest)
                  = Target.text :: Acorn.targetsOf rest :=
                Acorn.targetsOf_cons _ _ _ rfl
              rw [hte] at hnodup hdisj
              have htnotin : Target.text ∉ Acorn.targetsOf rest :=
                (List.nodup_cons.mp hnodup).1
              have hnodup2 : (Acorn.targetsOf rest).Nodup := (List.nodup_cons.mp hnodup).2
              have hw : AcornTextSource.toxml .text meta name obj el0
                  = .ok (el0.setText (some s)) := by
                unfold AcornTextSource.toxml
                rw [hgat]
                dsimp only
                rw [hser]
              obtain ⟨el1, hwrest, htag1, hattr1, htext1, ⟨added, hch1, haddtags⟩, hread1⟩ :=
                ihes (el0.setText (some s)) hgrest hvrest hnodup2
                  (by
                    intro c hc
                    rw [XmlElem.childrenL_setText] at hc
                    exact fun hmem => hdisj c hc (List.mem_cons_of_mem _ hmem))
              refine ⟨el1, ?_, ?_, ?_, ?_, ?_, ?_⟩
              · rw [Acorn.toxmlEntries.eq_def]
                dsimp only
                rw [hw]
                dsimp only
                exact hwrest
              · rw [htag1]
                simp
              · intro n hn
                rw [hte] at hn
                have hn2 : Target.attrKey n ∉ Acorn.targetsOf rest :=
                  fun hm => hn (List.mem_cons_of_mem _ hm)
                rw [hattr1 n hn2]
                simp
              · intro hn
                rw [hte] at hn
                exact absurd (List.mem_cons_self _ _) hn
              · refine ⟨added, ?_, ?_⟩
                · rw [hch1]
                  simp
                · intro c hc
                  rw [hte]
                  exact List.mem_cons_of_mem _ (haddtags c hc)
              · intro obj0 hnames
                have hcn : contentNames ((name, SrcKind.scalar .text, meta) :: rest)
                    = name :: contentNames rest := rfl
                rw [hcn] at hnames
                have hnn : name ∉ contentNames rest := (List.nodup_cons.mp hnames).1
                have hnames2 := (List.nodup_cons.mp hnames).2
                have htxt : el1.textF = some s := by
                  rw [htext1 htnotin]
                  simp
                have hr : AcornTextSource.fromxml .text meta name obj0 el1
                    = .ok (obj0.setattr name (.str s)) := by
                  unfold AcornTextSource.fromxml
                  have hgt : AcornTextSource.getText .text meta name el1
                      = .ok (some s) := by
                    unfold AcornTextSource.getText
                    rw [htxt]
                  rw [hgt]
                  dsimp only
                  rw [hpv]
                obtain ⟨objR, hfr, hagr, hpresr⟩ :=
                  hread1 (obj0.setattr name (.str s)) hnames2
                refine ⟨objR, ?_, ?_, ?_⟩
                · rw [Acorn.entriesFromxml.eq_def]
                  dsimp only
                  rw [hr]
                  dsimp only
                  exact hfr
                · rw [Acorn.agreeEntries.eq_def]
                  dsimp only
                  have hoR : objR.getattr name = some (.str s) := by
                    rw [hpresr name hnn, Obj.getattr_setattr_self]
                  rw [hgat, hoR, hagr]
                  simp [Value.pyEq]
                · intro n hn
                  rw [hcn] at hn
                  have hn1 : n ≠ name := fun hc => hn (by rw [hc]; exact List.mem_cons_self _ _)
                  have hn2 : n ∉ contentNames rest := fun hm => hn (List.mem_cons_of_mem _ hm)
                  rw [hpresr n hn2, Obj.getattr_setattr_ne _ _ _ _ hn1]
          | attr =>
              have hte : Acorn.targetsOf ((name, .scalar .attr, meta) :: rest)
                  = Target.attrKey name :: Acorn.targetsOf rest :=
                Acorn.targetsOf_cons _ _ _ rfl
              rw [hte] at hnodup hdisj
              have htnotin : Target.attrKey name ∉ Acorn.targetsOf rest :=
                (List.nodup_cons.mp hnodup).1
              have hnodup2 : (Acorn.targetsOf rest).Nodup := (List.nodup_cons.mp hnodup).2
              have hw : AcornTextSource.toxml .attr meta name obj el0
                  = .ok (el0.setAttr name s) := by
                unfold AcornTextSource.toxml
                rw [hgat]
                dsimp only
                rw [hser]
              obtain ⟨el1, hwrest, htag1, hattr1, htext1, ⟨added, hch1, haddtags⟩, hread1⟩ :=
                ihes (el0.setAttr name s) hgrest hvrest hnodup2
                  (by
                    intro c hc
                    rw [XmlElem.childrenL_setAttr] at hc
                    exact fun hmem => hdisj c hc (List.mem_cons_of_mem _ hmem))
              refine ⟨el1, ?_, ?_, ?_, ?_, ?_, ?_⟩
              · rw [Acorn.toxmlEntries.eq_def]
                dsimp only
                rw [hw]
                dsimp only
                exact hwrest
              · rw [htag1]
                simp
              · intro n hn
                rw [hte] at hn
                have hn1 : n ≠ name := by
                  intro hc
                  exact hn (by rw [hc]; exact List.mem_cons_self _ _)
                have hn2 : Target.attrKey n ∉ Acorn.targetsOf rest :=
                  fun hm => hn (List.mem_cons_of_mem _ hm)
                rw [hattr1 n hn2]
                rw [XmlElem.attribF_setAttr]
                exact dictGet_dictSet_ne _ _ _ _ hn1
              · intro hn
                rw [hte] at hn
                have hn2 : Target.text ∉ Acorn.targetsOf rest :=
                  fun hm => hn (List.mem_cons_of_mem _ hm)
                rw [htext1 hn2]
                simp
              · refine ⟨added, ?_, ?_⟩
                · rw [hch1]
                  simp
                · intro c hc
                  rw [hte]
                  exact List.mem_cons_of_mem _ (haddtags c hc)
              · intro obj0 hnames
                have hcn : contentNames ((name, SrcKind.scalar .attr, meta) :: rest)
                    = name :: contentNames rest := rfl
                rw [hcn] at hnames
                have hnn : name ∉ contentNames rest := (List.nodup_cons.mp hnames).1
                have hnames2 := (List.nodup_cons.mp hnames).2
                have hval : dictGet el1.attribF name = some s := by
                  rw [hattr1 name htnotin, XmlElem.attribF_setAttr]
                  exact dictGet_dictSet_self _ _ _
                have hr : AcornTextSource.fromxml .attr meta name obj0 el1
                    = .ok (obj0.setattr name (.str s)) := by
                  unfold AcornTextSource.fromxml
                  have hgt : AcornTextSource.getText .attr meta name el1
                      = .ok (some s) := by
                    unfold AcornTextSource.getText
                    rw [hval]
                  rw [hgt]
                  dsimp only
                  rw [hpv]
                obtain ⟨objR, hfr, hagr, hpresr⟩ :=
                  hread1 (obj0.setattr name (.str s)) hnames2
                refine ⟨objR, ?_, ?_, ?_⟩
                · rw [Acorn.entriesFromxml.eq_def]
                  dsimp only
                  rw [hr]
                  dsimp only
                  exact hfr
                · rw [Acorn.agreeEntries.eq_def]
                  dsimp only
                  have hoR : objR.getattr name = some (.str s) := by
                    rw [hpresr name hnn, Obj.getattr_setattr_self]
                  rw [hgat, hoR, hagr]
                  simp [Value.pyEq]
                · intro n hn
                  rw [hcn] at hn
                  have hn1 : n ≠ name := fun hc => hn (by rw [hc]; exact List.mem_cons_self _ _)
                  have hn2 : n ∉ contentNames rest := fun hm => hn (List.mem_cons_of_mem _ hm)
                  rw [hpresr n hn2, Obj.getattr_setattr_ne _ _ _ _ hn1]
          | subtext =>
              have hte : Acorn.targetsOf ((name, .scalar .subtext, meta) :: rest)
                  = Target.childTag (meta.tagF.getD name) :: Acorn.targetsOf rest :=
                Acorn.targetsOf_cons _ _ _ rfl
              rw [hte] at hnodup hdisj
              have htnotin : Target.childTag (meta.tagF.getD name) ∉ Acorn.targetsOf rest :=
                (List.nodup_cons.mp hnodup).1
              have hnodup2 : (Acorn.targetsOf rest).Nodup := (List.nodup_cons.mp hnodup).2
              have hw : AcornTextSource.toxml .subtext meta name obj el0
                  = .ok (el0.appendChild
                      (.mk (meta.tagF.getD name) [] (some s) [])) := by
                unfold AcornTextSource.toxml
                rw [hgat]
                dsimp only
                rw [hser]
              obtain ⟨el1, hwrest, htag1, hattr1, htext1, ⟨added, hch1, haddtags⟩, hread1⟩ :=
                ihes (el0.appendChild (.mk (meta.tagF.getD name) [] (some s) []))
                  hgrest hvrest hnodup2
                  (by
                    intro c hc
                    rw [XmlElem.childrenL_appendChild] at hc
                    rcases List.mem_append.mp hc with hc1 | hc1
                    · exact fun hmem => hdisj c hc1 (List.mem_cons_of_mem _ hmem)
                    · have hc2 : c = XmlElem.mk (meta.tagF.getD name) [] (some s) [] := by
                        simpa using hc1
                      rw [hc2]
                      exact htnotin)
              refine ⟨el1, ?_, ?_, ?_, ?_, ?_, ?_⟩
              · rw [Acorn.toxmlEntries.eq_def]
                dsimp only
                rw [hw]
                dsimp only
                exact hwrest
              · rw [htag1]
                simp
              · intro n hn
                rw [hte] at hn
                have hn2 : Target.attrKey n ∉ Acorn.targetsOf rest :=
                  fun hm => hn (List.mem_cons_of_mem _ hm)
                rw [hattr1 n hn2]
                simp
              · intro hn
                rw [hte] at hn
                have hn2 : Target.text ∉ Acorn.targetsOf rest :=
                  fun hm => hn (List.mem_cons_of_mem _ hm)
                rw [htext1 hn2]
                simp
              · refine ⟨XmlElem.mk (meta.tagF.getD name) [] (some s) [] :: added, ?_, ?_⟩
                · rw [hch1]
                  simp
                · intro c hc
                  rw [hte]
                  rcases List.mem_cons.mp hc with hc1 | hc1
                  · rw [hc1]
                    exact List.mem_cons_self _ _
                  · exact List.mem_cons_of_mem _ (haddtags c hc1)
              · intro obj0 hnames
                have hcn : contentNames ((name, SrcKind.scalar .subtext, meta) :: rest)
                    = name :: contentNames rest := rfl
                rw [hcn] at hnames
                have hnn : name ∉ contentNames rest := (List.nodup_cons.mp hnames).1
                have hnames2 := (List.nodup_cons.mp hnames).2
                have hfind : el1.findTag (meta.tagF.getD name)
                    = some (XmlElem.mk (meta.tagF.getD name) [] (some s) []) := by
                  unfold XmlElem.findTag
                  rw [hch1, XmlElem.childrenL_appendChild, List.append_assoc]
                  rw [findAppendFalse _ _ _
                    (by
                      intro c hc
                      have hcne : ¬(c.tagF = meta.tagF.getD name) := by
                        intro hceq
                        exact hdisj c hc (by rw [hceq]; exact List.mem_cons_self _ _)
                      simp [hcne])]
                  rw [List.cons_append]
                  exact findConsTrue _ _ _ (by simp [XmlElem.tagF])
                have hr : AcornTextSource.fromxml .subtext meta name obj0 el1
                    = .ok (obj0.setattr name (.str s)) := by
                  unfold AcornTextSource.fromxml
                  have hgt : AcornTextSource.getText .subtext meta name el1
                      = .ok (some s) := by
                    unfold AcornTextSource.getText
                    rw [hfind]
                    rfl
                  rw [hgt]
                  dsimp only
                  rw [hpv]
                obtain ⟨objR, hfr, hagr, hpresr⟩ :=
                  hread1 (obj0.setattr name (.str s)) hnames2
                refine ⟨objR, ?_, ?_, ?_⟩
                · rw [Acorn.entriesFromxml.eq_def]
                  dsimp only
                  rw [hr]
                  dsimp only
                  exact hfr
                · rw [Acorn.agreeEntries.eq_def]
                  dsimp only
                  have hoR : objR.getattr name = some (.str s) := by
                    rw [hpresr name hnn, Obj.getattr_setattr_self]
                  rw [hgat, hoR, hagr]
                  simp [Value.pyEq]
                · intro n hn
                  rw [hcn] at hn
                  have hn1 : n ≠ name := fun hc => hn (by rw [hc]; exact List.mem_cons_self _ _)
                  have hn2 : n ∉ contentNames rest := fun hm => hn (List.mem_cons_of_mem _ hm)
                  rw [hpresr n hn2, Obj.getattr_setattr_ne _ _ _ _ hn1]
      | child =>
          obtain ⟨⟨ccls, htype, hgccls⟩, hgrest⟩ :=
            Acorn.goodEntries_cons_child name meta rest hgood
          obtain ⟨⟨c, ccls2, hgat, htype2, hvccls⟩, hvrest⟩ :=
            Acorn.validEntries_cons_child name meta rest obj hvalid
          have hcc : ccls = ccls2 := by
            have h12 := htype.symm.trans htype2
            injection h12 with h13
            injection h13 with h14
          subst hcc
          have hlt : sizeOf c < N := by
            have h1 := Obj.sizeOf_getattr hgat
            simp at h1
            omega
          obtain ⟨cel, c2, hwcel, hteq, hfcel, hagc⟩ := IH c hlt ccls hgccls hvccls
          have hte : Acorn.targetsOf ((name, .child, meta) :: rest)
              = Target.childTag ccls.xml_tag :: Acorn.targetsOf rest :=
            Acorn.targetsOf_cons _ _ _ (by simp [Acorn.targetOf, htype])
          rw [hte] at hnodup hdisj
          have htnotin : Target.childTag ccls.xml_tag ∉ Acorn.targetsOf rest :=
            (List.nodup_cons.mp hnodup).1
          have hnodup2 : (Acorn.targetsOf rest).Nodup := (List.nodup_cons.mp hnodup).2
          have hw : AcornChildSource.toxml meta name obj el0
              = .ok (el0.appendChild cel) := by
            rw [AcornChildSource.toxml.eq_def]
            split
            next hg =>
              rw [hgat] at hg
              exact absurd hg (by simp)
            next c3 hg =>
              rw [hgat] at hg
              injection hg with hv
              injection hv with hv2
              subst hv2
              rw [htype]
              dsimp only
              rw [hwcel]
            next v hg hne =>
              rw [hgat] at hne
              injection hne with hv
              exact (hg c hv.symm).elim
          obtain ⟨el1, hwrest, htag1, hattr1, htext1, ⟨added, hch1, haddtags⟩, hread1⟩ :=
            ihes (el0.appendChild cel) hgrest hvrest hnodup2
              (by
                intro ch hc
                rw [XmlElem.childrenL_appendChild] at hc
                rcases List.mem_append.mp hc with hc1 | hc1
                · exact fun hmem => hdisj ch hc1 (List.mem_cons_of_mem _ hmem)
                · have hc2 : ch = cel := by simpa using hc1
                  rw [hc2, hteq]
                  exact htnotin)
          refine ⟨el1, ?_, ?_, ?_, ?_, ?_, ?_⟩
          · rw [Acorn.toxmlEntries.eq_def]
            dsimp only
            rw [hw]
            dsimp only
            exact hwrest
          · rw [htag1]
            simp
          · intro n hn
            rw [hte] at hn
            have hn2 : Target.attrKey n ∉ Acorn.targetsOf rest :=
              fun hm => hn (List.mem_cons_of_mem _ hm)
            rw [hattr1 n hn2]
            simp
          · intro hn
            rw [hte] at hn
            have hn2 : Target.text ∉ Acorn.targetsOf rest :=
              fun hm => hn (List.mem_cons_of_mem _ hm)
            rw [htext1 hn2]
            simp
          · refine ⟨cel :: added, ?_, ?_⟩
            · rw [hch1]
              simp
            · intro ch hc
              rw [hte]
              rcases List.mem_cons.mp hc with hc1 | hc1
              · rw [hc1, hteq]
                exact List.mem_cons_self _ _
              · exact List.mem_cons_of_mem _ (haddtags ch hc1)
          · intro obj0 hnames
            have hcn : contentNames ((name, SrcKind.child, meta) :: rest)
                = name :: contentNames rest := rfl
            rw [hcn] at hnames
            have hnn : name ∉ contentNames rest := (List.nodup_cons.mp hnames).1
            have hnames2 := (List.nodup_cons.mp hnames).2
            have hfind : el1.findTag ccls.xml_tag = some cel := by
              unfold XmlElem.findTag
              rw [hch1, XmlElem.childrenL_appendChild, List.append_assoc]
              rw [findAppendFalse _ _ _
                (by
                  intro ch hc
                  have hcne : ¬(ch.tagF = ccls.xml_tag) := by
                    intro hceq
                    exact hdisj ch hc (by rw [hceq]; exact List.mem_cons_self _ _)
                  simp [hcne])]
              rw [List.cons_append]
              exact findConsTrue _ _ _ (by simp [hteq])
            have hr : AcornChildSource.fromxml meta name obj0 el1
                = .ok (obj0.setattr name (.obj c2)) := by
              rw [AcornChildSource.fromxml.eq_def]
              rw [htype]
              dsimp only
              split
              next ch hfx =>
                rw [hfind] at hfx
                injection hfx with hv
                subst hv
                rw [hfcel]
              next hfx =>
                rw [hfind] at hfx
                exact absurd hfx (by simp)
            obtain ⟨objR, hfr, hagr, hpresr⟩ :=
              hread1 (obj0.setattr name (.obj c2)) hnames2
            refine ⟨objR, ?_, ?_, ?_⟩
            · rw [Acorn.entriesFromxml.eq_def]
              dsimp only
              rw [hr]
              dsimp only
              exact hfr
            · rw [Acorn.agreeEntries.eq_def]
              dsimp only
              have hoR : objR.getattr name = some (.obj c2) := by
                rw [hpresr name hnn, Obj.getattr_setattr_self]
              rw [hgat, hoR, htype]
              dsimp only
              rw [hagc, hagr]
              rfl
            · intro n hn
              rw [hcn] at hn
              have hn1 : n ≠ name := fun hc => hn (by rw [hc]; exact List.mem_cons_self _ _)
              have hn2 : n ∉ contentNames rest := fun hm => hn (List.mem_cons_of_mem _ hm)
              rw [hpresr n hn2, Obj.getattr_setattr_ne _ _ _ _ hn1]
      | children =>
          obtain ⟨⟨ccls, htype, hgccls⟩, hgrest⟩ :=
            Acorn.goodEntries_cons_children name meta rest hgood
          obtain ⟨⟨os, ccls2, hgat, htype2, hvlist⟩, hvrest⟩ :=
            Acorn.validEntries_cons_children name meta rest obj hvalid
          have hcc : ccls = ccls2 := by
            have h12 := htype.symm.trans htype2
            injection h12 with h13
            injection h13 with h14
          subst hcc
          have hosN : ∀ o ∈ os, sizeOf o < N := by
            intro o ho
            have h1 := Obj.sizeOf_getattr hgat
            have h2 := List.sizeOf_lt_of_mem ho
            simp at h1
            omega
          have hmemfacts : ∀ o ∈ os, ∃ cel, Acorn.toxml ccls o = .ok cel ∧
              cel.tagF = ccls.xml_tag ∧ ∃ o2, Acorn.fromxml ccls cel = .ok o2 ∧
              Acorn.agreesOn ccls o o2 = true := by
            intro o ho
            obtain ⟨cel, o2, hw1, ht1, hf1, ha1⟩ :=
              IH o (hosN o ho) ccls hgccls (Acorn.validList_forall ccls os hvlist o ho)
            exact ⟨cel, hw1, ht1, o2, hf1, ha1⟩
          obtain ⟨cels, hwl, hf2⟩ := Acorn.toxmlList_spec ccls os el0 hmemfacts
          have hceltags : ∀ cel ∈ cels, cel.tagF = ccls.xml_tag := by
            intro cel hc
            obtain ⟨o, hrel⟩ := forall2_mem_right hf2 cel hc
            exact hrel.1
          have hte : Acorn.targetsOf ((name, .children, meta) :: rest)
              = Target.childTag ccls.xml_tag :: Acorn.targetsOf rest :=
            Acorn.targetsOf_cons _ _ _ (by simp [Acorn.targetOf, htype])
          rw [hte] at hnodup hdisj
          have htnotin : Target.childTag ccls.xml_tag ∉ Acorn.targetsOf rest :=
            (List.nodup_cons.mp hnodup).1
          have hnodup2 : (Acorn.targetsOf rest).Nodup := (List.nodup_cons.mp hnodup).2
          have hw : AcornChildrenSource.toxml meta name obj el0
              = .ok (XmlElem.mk el0.tagF el0.attribF el0.textF
                  (el0.childrenL ++ cels)) := by
            rw [AcornChildrenSource.toxml.eq_def]
            split
            next hg =>
              rw [hgat] at hg
              exact absurd hg (by simp)
            next os3 hg =>
              rw [hgat] at hg
              injection hg with hv
              injection hv with hv2
              subst hv2
              rw [htype]
              dsimp only
              exact hwl
            next v hg hne =>
              rw [hgat] at hne
              injection hne with hv
              exact (hg os hv.symm).elim
          obtain ⟨el1, hwrest, htag1, hattr1, htext1, ⟨added, hch1, haddtags⟩, hread1⟩ :=
            ihes (XmlElem.mk el0.tagF el0.attribF el0.textF (el0.childrenL ++ cels))
              hgrest hvrest hnodup2
              (by
                intro ch hc
                simp only [XmlElem.childrenL] at hc
                rcases List.mem_append.mp hc with hc1 | hc1
                · exact fun hmem => hdisj ch hc1 (List.mem_cons_of_mem _ hmem)
                · rw [hceltags ch hc1]
                  exact htnotin)
          refine ⟨el1, ?_, ?_, ?_, ?_, ?_, ?_⟩
          · rw [Acorn.toxmlEntries.eq_def]
            dsimp only
            rw [hw]
            dsimp only
            exact hwrest
          · rw [htag1]
            simp [XmlElem.tagF]
          · intro n hn
            rw [hte] at hn
            have hn2 : Target.attrKey n ∉ Acorn.targetsOf rest :=
              fun hm => hn (List.mem_cons_of_mem _ hm)
            rw [hattr1 n hn2]
            simp [XmlElem.attribF]
          · intro hn
            rw [hte] at hn
            have hn2 : Target.text ∉ Acorn.targetsOf rest :=
              fun hm => hn (List.mem_cons_of_mem _ hm)
            rw [htext1 hn2]
            simp [XmlElem.textF]
          · refine ⟨cels ++ added, ?_, ?_⟩
            · rw [hch1]
              simp [XmlElem.childrenL]
            · intro ch hc
              rw [hte]
              rcases List.mem_append.mp hc with hc1 | hc1
              · rw [hceltags ch hc1]
                exact List.mem_cons_self _ _
              · exact List.mem_cons_of_mem _ (haddtags ch hc1)
          · intro obj0 hnames
            have hcn : contentNames ((name, SrcKind.children, meta) :: rest)
                = name :: contentNames rest := rfl
            rw [hcn] at hnames
            have hnn : name ∉ contentNames rest := (List.nodup_cons.mp hnames).1
            have hnames2 := (List.nodup_cons.mp hnames).2
            have hfilter : el1.iterfindTag ccls.xml_tag = cels := by
              unfold XmlElem.iterfindTag
              rw [hch1]
              simp only [XmlElem.childrenL]
              rw [List.append_assoc, List.filter_append, List.filter_append]
              rw [filterFalse _ _
                (by
                  intro ch hc
                  have hcne : ¬(ch.tagF = ccls.xml_tag) := by
                    intro hceq
                    exact hdisj ch hc (by rw [hceq]; exact List.mem_cons_self _ _)
                  simp [hcne])]
              rw [filterTrue _ _ (by intro ch hc; simp [hceltags ch hc])]
              rw [filterFalse _ _
                (by
                  intro ch hc
                  have hcne : ¬(ch.tagF = ccls.xml_tag) := by
                    intro hceq
                    apply htnotin
                    rw [← hceq]
                    exact haddtags ch hc
                  simp [hcne])]
              simp
            obtain ⟨os2, hlist2, hagl⟩ := Acorn.fromxmlList_of_pairs ccls os cels
              (hf2.imp (fun a b hab => hab.2))
            have hr : AcornChildrenSource.fromxml meta name obj0 el1
                = .ok (obj0.setattr name (.list os2)) := by
              rw [AcornChildrenSource.fromxml.eq_def]
              rw [htype]
              dsimp only
              rw [hfilter, hlist2]
            obtain ⟨objR, hfr, hagr, hpresr⟩ :=
              hread1 (obj0.setattr name (.list os2)) hnames2
            refine ⟨objR, ?_, ?_, ?_⟩
            · rw [Acorn.entriesFromxml.eq_def]
              dsimp only
              rw [hr]
              dsimp only
              exact hfr
            · rw [Acorn.agreeEntries.eq_def]
              dsimp only
              have hoR : objR.getattr name = some (.list os2) := by
                rw [hpresr name hnn, Obj.getattr_setattr_self]
              rw [hgat, hoR, htype]
              dsimp only
              rw [hagl, hagr]
              rfl
            · intro n hn
              rw [hcn] at hn
              have hn1 : n ≠ name := fun hc => hn (by rw [hc]; exact List.mem_cons_self _ _)
              have hn2 : n ∉ contentNames rest := fun hm => hn (List.mem_cons_of_mem _ hm)
              rw [hpresr n hn2, Obj.getattr_setattr_ne _ _ _ _ hn1]

theorem Acorn.goodEntries_tail (e : String × SrcKind × RawMeta)
    (rest : List (String × SrcKind × RawMeta))
    (h : Acorn.goodEntries (e :: rest) = true) : Acorn.goodEntries rest = true := by
  obtain ⟨n, k, m⟩ := e
  cases k with
  | scalar sk => exact (Acorn.goodEntries_cons_scalar sk n m rest h).2
  | child => exact (Acorn.goodEntries_cons_child n m rest h).2
  | children => exact (Acorn.goodEntries_cons_children n m rest h).2

theorem Acorn.goodEntries_mem_child :
    ∀ (es : List (String × SrcKind × RawMeta)) (n : String) (m : RawMeta)
      (ccls : AcornClass),
      Acorn.goodEntries es = true → (n, SrcKind.child, m) ∈ es →
      m.typeF = some (.cls ccls) → Acorn.goodSchema ccls = true := by
  intro es
  induction es with
  | nil => intro n m ccls _ hm; simp at hm
  | cons e rest ih =>
      intro n m ccls hg hm ht
      rcases List.mem_cons.mp hm with hm1 | hm1
      · rw [← hm1] at hg
        obtain ⟨⟨ccls2, ht2, hgc⟩, _⟩ := Acorn.goodEntries_cons_child n m rest hg
        have hcc : ccls2 = ccls := by
          have h12 := ht2.symm.trans ht
          injection h12 with h13
          injection h13 with h14
        rwa [hcc] at hgc
      · exact ih n m ccls (Acorn.goodEntries_tail e rest hg) hm1 ht

theorem AcornClass.sizeOf_member_cls (tag : String)
    (es : List (String × SrcKind × RawMeta)) (n : String) (k : SrcKind)
    (m : RawMeta) (ccls : AcornClass) (hm : (n, k, m) ∈ es)
    (ht : m.typeF = some (.cls ccls)) :
    sizeOf ccls < sizeOf (AcornClass.mk tag es) := by
  have h1 := List.sizeOf_lt_of_mem hm
  have h2 := RawMeta.sizeOf_typeCls ht
  simp at h1 ⊢
  omega

theorem Acorn.initEntries_ok :
    ∀ (es : List (String × SrcKind × RawMeta)),
      Acorn.goodEntries es = true →
      (∀ n m ccls, (n, SrcKind.child, m) ∈ es → m.typeF = some (.cls ccls) →
         ∃ cobj, Acorn.init ccls [] = .ok cobj) →
      ∀ obj0, ∃ obj, Acorn.initEntries es obj0 = .ok obj := by
  intro es
  induction es with
  | nil =>
      intro _ _ obj0
      exact ⟨obj0, by rw [Acorn.initEntries.eq_def]⟩
  | cons e rest ih =>
      intro hg hcls obj0
      obtain ⟨n0, k0, m0⟩ := e
      have hcls2 : ∀ n m ccls, (n, SrcKind.child, m) ∈ rest →
          m.typeF = some (.cls ccls) → ∃ cobj, Acorn.init ccls [] = .ok cobj :=
        fun n m c hm ht => hcls n m c (List.mem_cons_of_mem _ hm) ht
      cases k0 with
      | scalar sk =>
          have hgrest := (Acorn.goodEntries_cons_scalar sk n0 m0 rest hg).2
          cases hdef : m0.defaultF with
          | some d =>
              have hstep : Acorn.initEntries ((n0, SrcKind.scalar sk, m0) :: rest) obj0
                  = Acorn.initEntries rest (obj0.setattr n0 d) := by
                rw [Acorn.initEntries.eq_def]
                dsimp only
                rw [hdef]
              rw [hstep]
              exact ih hgrest hcls2 _
          | none =>
              have hstep : Acorn.initEntries ((n0, SrcKind.scalar sk, m0) :: rest) obj0
                  = Acorn.initEntries rest obj0 := by
                rw [Acorn.initEntries.eq_def]
                dsimp only
                rw [hdef]
              rw [hstep]
              exact ih hgrest hcls2 _
      | child =>
          obtain ⟨⟨ccls, htype, _⟩, hgrest⟩ := Acorn.goodEntries_cons_child n0 m0 rest hg
          by_cases hdef : m0.defaultF.isSome
          · obtain ⟨cobj, hco⟩ := hcls n0 m0 ccls (List.mem_cons_self _ _) htype
            have hstep : Acorn.initEntries ((n0, SrcKind.child, m0) :: rest) obj0
                = Acorn.initEntries rest (obj0.setattr n0 (.obj cobj)) := by
              rw [Acorn.initEntries.eq_def]
              dsimp only
              rw [if_pos hdef]
              split
              next hx => rw [htype] at hx; exact absurd hx (by simp)
              next cv hx => rw [htype] at hx; exact absurd hx (by simp)
              next ccls2 hx =>
                rw [htype] at hx
                injection hx with h13
                injection h13 with h14
                subst h14
                rw [hco]
            rw [hstep]
            exact ih hgrest hcls2 _
          · have hstep : Acorn.initEntries ((n0, SrcKind.child, m0) :: rest) obj0
                = Acorn.initEntries rest obj0 := by
              rw [Acorn.initEntries.eq_def]
              dsimp only
              rw [if_neg hdef]
            rw [hstep]
            exact ih hgrest hcls2 _
      | children =>
          have hgrest := (Acorn.goodEntries_cons_children n0 m0 rest hg).2
          have hstep : Acorn.initEntries ((n0, SrcKind.children, m0) :: rest) obj0
              = Acorn.initEntries rest (obj0.setattr n0 (.list [])) := by
            rw [Acorn.initEntries.eq_def]
          rw [hstep]
          exact ih hgrest hcls2 _

theorem Acorn.init_ok :
    ∀ (M : Nat) (cls : AcornClass), sizeOf cls < M →
      Acorn.goodSchema cls = true → ∃ obj, Acorn.init cls [] = .ok obj := by
  intro M
  induction M with
  | zero => intro cls h; omega
  | succ M ihM =>
      intro cls hM hg
      obtain ⟨tag, es⟩ := cls
      have hge : Acorn.goodEntries es = true := by
        rw [Acorn.goodSchema.eq_def] at hg
        dsimp only at hg
        rw [Bool.and_eq_true, Bool.and_eq_true] at hg
        exact hg.2
      have hcls : ∀ n m ccls, (n, SrcKind.child, m) ∈ es →
          m.typeF = some (.cls ccls) → ∃ cobj, Acorn.init ccls [] = .ok cobj := by
        intro n m ccls hm ht
        have hsz := AcornClass.sizeOf_member_cls tag es n SrcKind.child m ccls hm ht
        have hmM : sizeOf ccls < M := by
          simp at hsz hM
          omega
        exact ihM ccls hmM (Acorn.goodEntries_mem_child es n m ccls hge hm ht)
      obtain ⟨obj1, h1⟩ := Acorn.initEntries_ok es hge hcls (Obj.mk [])
      refine ⟨Acorn.applyKwargs es obj1 [], ?_⟩
      rw [Acorn.init.eq_def]
      dsimp only
      rw [h1]

theorem Acorn.roundtripAux :
    ∀ (N : Nat) (obj : Obj), sizeOf obj < N →
      ∀ cls, Acorn.goodSchema cls = true → Acorn.validFor cls obj = true →
      ∃ el o2, Acorn.toxml cls obj = .ok el ∧ el.tagF = cls.xml_tag ∧
        Acorn.fromxml cls el = .ok o2 ∧ Acorn.agreesOn cls obj o2 = true := by
  intro N
  induction N with
  | zero => intro obj h; omega
  | succ N ihN =>
      intro obj hN cls hg hv
      obtain ⟨tag, es⟩ := cls
      have hparts : (contentNames es).Nodup ∧ (Acorn.targetsOf es).Nodup ∧
          Acorn.goodEntries es = true := by
        rw [Acorn.goodSchema.eq_def] at hg
        dsimp only at hg
        rw [Bool.and_eq_true, Bool.and_eq_true] at hg
        exact ⟨of_decide_eq_true hg.1.1, of_decide_eq_true hg.1.2, hg.2⟩
      obtain ⟨hnn, hnt, hge⟩ := hparts
      have hve : Acorn.validEntries es obj = true := by
        rw [Acorn.validFor.eq_def] at hv
        exact hv
      obtain ⟨el1, hwE, htagE, _, _, _, hreadE⟩ :=
        Acorn.roundtripEntries (sizeOf obj) obj (Nat.le_refl _)
          (fun o ho c hgc hvc => ihN o (by omega) c hgc hvc)
          es (XmlElem.mk tag [] none []) hge hve hnt
          (by intro c hc; simp [XmlElem.childrenL] at hc)
      obtain ⟨obj0, hinit⟩ := Acorn.init_ok (sizeOf (AcornClass.mk tag es) + 1)
        (AcornClass.mk tag es) (by omega) hg
      obtain ⟨objR, hfrE, hagE, _⟩ := hreadE obj0 hnn
      refine ⟨el1, objR, ?_, ?_, ?_, ?_⟩
      · rw [Acorn.toxml.eq_def]
        dsimp only [AcornClass.content, AcornClass.xml_tag]
        exact hwE
      · rw [htagE]
        simp [XmlElem.tagF, AcornClass.xml_tag]
      · rw [Acorn.fromxml.eq_def]
        rw [hinit]
        dsimp only [AcornClass.content]
        exact hfrE
      · rw [Acorn.agreesOn.eq_def]
        exact hagE

/--
C1 (amended): round-trip for well-formed schemas and valid instances.  For
every class whose schema is `goodSchema` (pairwise-distinct entry names and
XML write locations, string-typed scalar converters, recursively
well-formed child classes) and every instance `validFor` it (each scalar a
string satisfying any configured options, nested instances and lists
populated and recursively valid), serializing with `toxml` and loading the
produced element back with `fromxml` succeeds and yields an instance whose
scalar attribute values equal the originals, whose single-child attributes
are recursively equal, and whose multi-child attributes are equal-length
sequences, recursively equal element-wise, in the same order (`agreesOn`).
-/
theorem roundtrip_wellformed (cls : AcornClass) (obj : Obj)
    (hg : Acorn.goodSchema cls = true) (hv : Acorn.validFor cls obj = true) :
    ∃ el obj2, Acorn.toxml cls obj = .ok el ∧ Acorn.fromxml cls el = .ok obj2 ∧
      Acorn.agreesOn cls obj obj2 = true := by
  obtain ⟨el, o2, h1, _, h3, h4⟩ :=
    Acorn.roundtripAux (sizeOf obj + 1) obj (by omega) cls hg hv
  exact ⟨el, o2, h1, h3, h4⟩


/-!
## Introduction lemmas for evaluating the round-trip predicates on
concrete schemas and instances
-/

theorem Acorn.goodEntries_nil : Acorn.goodEntries [] = true := by
  rw [Acorn.goodEntries.eq_def]

theorem Acorn.goodEntries_scalar_intro (sk : SKind) (n : String) (m : RawMeta)
    (rest : List (String × SrcKind × RawMeta))
    (ht : m.typeF = some (.conv .pyStr))
    (hrest : Acorn.goodEntries rest = true) :
    Acorn.goodEntries ((n, .scalar sk, m) :: rest) = true := by
  rw [Acorn.goodEntries.eq_def]
  dsimp only
  rw [ht, hrest]
  rfl

theorem Acorn.goodEntries_child_intro (n : String) (m : RawMeta)
    (rest : List (String × SrcKind × RawMeta)) (ccls : AcornClass)
    (ht : m.typeF = some (.cls ccls))
    (hc : Acorn.goodSchema ccls = true)
    (hrest : Acorn.goodEntries rest = true) :
    Acorn.goodEntries ((n, .child, m) :: rest) = true := by
  rw [Acorn.goodEntries.eq_def]
  dsimp only
  rw [hrest, Bool.and_true]
  split
  next c hx =>
    rw [ht] at hx
    injection hx with h13
    injection h13 with h14
    rw [← h14]
    exact hc
  next hx =>
    exact (hx ccls ht).elim

theorem Acorn.goodEntries_children_intro (n : String) (m : RawMeta)
    (rest : List (String × SrcKind × RawMeta)) (ccls : AcornClass)
    (ht : m.typeF = some (.cls ccls))
    (hc : Acorn.goodSchema ccls = true)
    (hrest : Acorn.goodEntries rest = true) :
    Acorn.goodEntries ((n, .children, m) :: rest) = true := by
  rw [Acorn.goodEntries.eq_def]
  dsimp only
  rw [hrest, Bool.and_true]
  split
  next c hx =>
    rw [ht] at hx
    injection hx with h13
    injection h13 with h14
    rw [← h14]
    exact hc
  next hx =>
    exact (hx ccls ht).elim

theorem Acorn.goodSchema_intro (tag : String)
    (es : List (String × SrcKind × RawMeta))
    (h1 : (contentNames es).Nodup) (h2 : (Acorn.targetsOf es).Nodup)
    (h3 : Acorn.goodEntries es = true) :
    Acorn.goodSchema (.mk tag es) = true := by
  rw [Acorn.goodSchema.eq_def]
  simp [h1, h2, h3]

theorem Acorn.validEntries_nil (obj : Obj) : Acorn.validEntries [] obj = true := by
  rw [Acorn.validEntries.eq_def]

theorem Acorn.validEntries_scalar_intro (sk : SKind) (n : String) (m : RawMeta)
    (rest : List (String × SrcKind × RawMeta)) (obj : Obj) (s : String)
    (hg : obj.getattr n = some (.str s))
    (ho : ∀ opts, m.optionsF = some opts → s ∈ opts)
    (hrest : Acorn.validEntries rest obj = true) :
    Acorn.validEntries ((n, .scalar sk, m) :: rest) obj = true := by
  rw [Acorn.validEntries.eq_def]
  dsimp only
  rw [hg, hrest, Bool.and_true]
  cases hopts : m.optionsF with
  | none => rfl
  | some opts =>
      have := ho opts hopts
      simp [this]

theorem Acorn.validEntries_child_intro (n : String) (m : RawMeta)
    (rest : List (String × SrcKind × RawMeta)) (obj : Obj) (c : Obj)
    (ccls : AcornClass)
    (hg : obj.getattr n = some (.obj c))
    (ht : m.typeF = some (.cls ccls))
    (hv : Acorn.validFor ccls c = true)
    (hrest : Acorn.validEntries rest obj = true) :
    Acorn.validEntries ((n, .child, m) :: rest) obj = true := by
  rw [Acorn.validEntries.eq_def]
  dsimp only
  rw [hrest, Bool.and_true]
  split
  next x c0 ccl heq1 heq2 =>
    rw [hg] at heq1
    injection heq1 with h1
    injection h1 with h2
    rw [ht] at heq2
    injection heq2 with h3
    injection h3 with h4
    rw [← h2, ← h4]
    exact hv
  next hx =>
    exact (hx c ccls hg ht).elim

theorem Acorn.validList_nil (ccls : AcornClass) : Acorn.validList ccls [] = true := by
  rw [Acorn.validList.eq_def]

theorem Acorn.validList_cons_intro (ccls : AcornClass) (o : Obj) (os : List Obj)
    (h1 : Acorn.validFor ccls o = true) (h2 : Acorn.validList ccls os = true) :
    Acorn.validList ccls (o :: os) = true := by
  rw [Acorn.validList.eq_def]
  dsimp only
  rw [h1, h2]
  rfl

theorem Acorn.validFor_intro (tag : String)
    (es : List (String × SrcKind × RawMeta)) (obj : Obj)
    (h : Acorn.validEntries es obj = true) :
    Acorn.validFor (.mk tag es) obj = true := by
  rw [Acorn.validFor.eq_def]
  exact h

theorem Acorn.validEntries_children_intro (n : String) (m : RawMeta)
    (rest : List (String × SrcKind × RawMeta)) (obj : Obj) (os : List Obj)
    (ccls : AcornClass)
    (hg : obj.getattr n = some (.list os))
    (ht : m.typeF = some (.cls ccls))
    (hv : Acorn.validList ccls os = true)
    (hrest : Acorn.validEntries rest obj = true) :
    Acorn.validEntries ((n, .children, m) :: rest) obj = true := by
  rw [Acorn.validEntries.eq_def]
  dsimp only
  rw [hrest, Bool.and_true]
  split
  next x os0 ccl heq1 heq2 =>
    rw [hg] at heq1
    injection heq1 with h1
    injection h1 with h2
    rw [ht] at heq2
    injection heq2 with h3
    injection h3 with h4
    rw [← h2, ← h4]
    exact hv
  next hx =>
    exact (hx os ccls hg ht).elim

/--
C1, counterexample to the claim as stated.  An instance whose schema-backed
attribute is populated (the claim's only requirement) need not round-trip:
with options `["a"]` configured and the stored value `"c"`, `toxml`
serializes the attribute unchecked, and `fromxml` of the produced element
raises the invalid-option `AcornException` instead of reproducing the
instance.
-/
theorem roundtrip_populated_counterexample :
    Acorn.toxml
        (.mk "e" [("a", .scalar .attr,
            .mk (some "attr") (some (.conv .pyStr)) none (some ["a"]) none none false)])
        (Obj.mk [("a", .str "c")])
      = .ok (.mk "e" [("a", "c")] none []) ∧
    Acorn.fromxml
        (.mk "e" [("a", .scalar .attr,
            .mk (some "attr") (some (.conv .pyStr)) none (some ["a"]) none none false)])
        (.mk "e" [("a", "c")] none [])
      = .error (.acornInvalidOption "c") := by
  constructor
  · simp [Acorn.toxml, Acorn.toxmlEntries, AcornTextSource.toxml,
          AcornTextSource.processValTxml, Ser.run, pyStrValue, Obj.getattr,
          Obj.attrs, dictGet, AcornClass.content, AcornClass.xml_tag,
          XmlElem.setAttr, dictSet, RawMeta.serF, serGetD_pyStr]
  · simp [Acorn.fromxml, Acorn.init, Acorn.initEntries, Acorn.applyKwargs,
          Acorn.entriesFromxml, AcornTextSource.fromxml, AcornTextSource.getText,
          AcornTextSource.processValFxml, AcornTextSource.metaType, Conv.run,
          memOptions, pyStrValue, XmlElem.attribF, dictGet, RawMeta.typeF,
          RawMeta.optionsF, RawMeta.defaultF, AcornClass.content]

/-- A plain string attribute entry for the round-trip example. -/
def exAttrMeta : RawMeta :=
  .mk (some "attr") (some (.conv .pyStr)) none none none none false

/-- The nested child class of the round-trip example. -/
def exChildCls : AcornClass := .mk "c" [("nm", .scalar .attr, exAttrMeta)]

/-- The multi-child class of the round-trip example. -/
def exTagCls : AcornClass := .mk "t" [("nm", .scalar .attr, exAttrMeta)]

/-- The parent class of the round-trip example: one attribute entry, one
child-text entry, one single-child entry and one multi-child entry. -/
def exParentCls : AcornClass :=
  .mk "item"
    [("name", .scalar .attr, exAttrMeta),
     ("descr", .scalar .subtext,
        .mk (some "child.text") (some (.conv .pyStr)) none none none none false),
     ("nested", .child,
        .mk (some "child") (some (.cls exChildCls)) none none none none false),
     ("kids", .children,
        .mk (some "children") (some (.cls exTagCls)) none none none none false)]

/-- A fully populated instance of the round-trip example class. -/
def exParentObj : Obj :=
  Obj.mk
    [("name", .str "x"), ("descr", .str "hi"),
     ("nested", .obj (Obj.mk [("nm", .str "n1")])),
     ("kids", .list [Obj.mk [("nm", .str "t1")], Obj.mk [("nm", .str "t2")]])]

theorem exChildGood : Acorn.goodSchema exChildCls = true :=
  Acorn.goodSchema_intro "c" _ (by decide)
    (by decide)
    (Acorn.goodEntries_scalar_intro .attr "nm" exAttrMeta [] rfl Acorn.goodEntries_nil)

theorem exTagGood : Acorn.goodSchema exTagCls = true :=
  Acorn.goodSchema_intro "t" _ (by decide)
    (by decide)
    (Acorn.goodEntries_scalar_intro .attr "nm" exAttrMeta [] rfl Acorn.goodEntries_nil)

theorem exParentGood : Acorn.goodSchema exParentCls = true :=
  Acorn.goodSchema_intro "item" _ (by decide) (by decide)
    (Acorn.goodEntries_scalar_intro .attr "name" exAttrMeta _ rfl
      (Acorn.goodEntries_scalar_intro .subtext "descr" _ _ rfl
        (Acorn.goodEntries_child_intro "nested" _ _ exChildCls rfl exChildGood
          (Acorn.goodEntries_children_intro "kids" _ _ exTagCls rfl exTagGood
            Acorn.goodEntries_nil))))

theorem exParentValid : Acorn.validFor exParentCls exParentObj = true :=
  Acorn.validFor_intro "item" _ _
    (Acorn.validEntries_scalar_intro .attr "name" exAttrMeta _ _ "x" rfl
      (by intro opts h; exact absurd h (by simp [exAttrMeta, RawMeta.optionsF]))
      (Acorn.validEntries_scalar_intro .subtext "descr" _ _ _ "hi" rfl
        (by intro opts h; exact absurd h (by simp [RawMeta.optionsF]))
        (Acorn.validEntries_child_intro "nested" _ _ _
          (Obj.mk [("nm", .str "n1")]) exChildCls rfl rfl
          (Acorn.validFor_intro "c" _ _
            (Acorn.validEntries_scalar_intro .attr "nm" exAttrMeta _ _ "n1" rfl
              (by intro opts h; exact absurd h (by simp [exAttrMeta, RawMeta.optionsF]))
              (Acorn.validEntries_nil _)))
          (Acorn.validEntries_children_intro "kids" _ _ _
            [Obj.mk [("nm", .str "t1")], Obj.mk [("nm", .str "t2")]] exTagCls rfl rfl
            (Acorn.validList_cons_intro exTagCls _ _
              (Acorn.validFor_intro "t" _ _
                (Acorn.validEntries_scalar_intro .attr "nm" exAttrMeta _ _ "t1" rfl
                  (by intro opts h; exact absurd h (by simp [exAttrMeta, RawMeta.optionsF]))
                  (Acorn.validEntries_nil _)))
              (Acorn.validList_cons_intro exTagCls _ _
                (Acorn.validFor_intro "t" _ _
                  (Acorn.validEntries_scalar_intro .attr "nm" exAttrMeta _ _ "t2" rfl
                    (by intro opts h; exact absurd h (by simp [exAttrMeta, RawMeta.optionsF]))
                    (Acorn.validEntries_nil _)))
                (Acorn.validList_nil exTagCls)))
            (Acorn.validEntries_nil _)))))

/-- Witness for `roundtrip_wellformed` on a schema exercising all five
strategy kinds over a fully populated instance. -/
theorem roundtrip_wellformed_witness :
    Acorn.goodSchema exParentCls = true ∧
    Acorn.validFor exParentCls exParentObj = true ∧
    (∃ el obj2, Acorn.toxml exParentCls exParentObj = .ok el ∧
      Acorn.fromxml exParentCls el = .ok obj2 ∧
      Acorn.agreesOn exParentCls exParentObj obj2 = true) :=
  ⟨exParentGood, exParentValid,
    roundtrip_wellformed exParentCls exParentObj exParentGood exParentValid⟩
